import Mathlib

/-!
Verification of the tantivy columnar-writer core against its specification.

The development shallowly embeds the write path of the columnar storage
engine: the dense/sparse set-block codecs of the optional index, the
per-column cardinality classifier, the per-column frame serialization of
`columnar/writer/mod.rs`, and the `Column::num_rows` reader surface of
`column/mod.rs`.  Machine bytes are modelled as `Nat` values below 256 and
`u16` block offsets as `Nat` values below 65536.

The set-block codec implementation itself is not part of the sources at
hand (only its tests are), so the codecs are modelled from the
specification, section 4.E.
-/

/-! ## Set-block codecs (dense / sparse), spec section 4.E -/

/-- Little-endian interpretation of a list of bits: the head is the least
significant bit. -/
def bitsToNat : List Bool → Nat
  | [] => 0
  | b :: rest => (if b then 1 else 0) + 2 * bitsToNat rest

/-- Modelled from the spec: byte `i` of the dense bitmap holds bits
`8*i .. 8*i+7` of the membership bitmap, least-significant bit first
(little-endian within each word). -/
def denseByte (vals : List Nat) (i : Nat) : Nat :=
  bitsToNat ((List.range 8).map (fun j => vals.contains (8 * i + j)))

/-- The dense block payload is always 8192 bytes (65536 bits). -/
def DENSE_BLOCK_NUM_BYTES : Nat := 8192

/-- Modelled from the spec: `DenseBlockCodec::serialize` writes exactly
8192 bytes of bitmap, with bit `v` set iff `v` is one of the serialized
values. -/
def denseSerialize (vals : List Nat) : List Nat :=
  (List.range DENSE_BLOCK_NUM_BYTES).map (fun i => denseByte vals i)

/-- Modelled from the spec: dense `contains(off)` is a bit test on the
opened bitmap buffer. -/
def denseContains (buf : List Nat) (v : Nat) : Bool :=
  (buf.getD (v / 8) 0).testBit (v % 8)

/-- Number of set bits strictly below position `pos` for an abstract
membership function `f`. -/
def countSetBelow (f : Nat → Bool) (pos : Nat) : Nat :=
  ((List.range pos).filter f).length

/-- Modelled from the spec: dense `rank_if_exists(off)` returns the count
of ones in bits `[0, off)` when bit `off` is set, and `None` otherwise. -/
def denseRankIfExists (buf : List Nat) (v : Nat) : Option Nat :=
  if denseContains buf v then some (countSetBelow (fun w => denseContains buf w) v)
  else none

/-- The ascending list of set-bit positions of the block. -/
def setBitPositions (f : Nat → Bool) : List Nat :=
  (List.range 65536).filter f

/-- Modelled from the spec: dense `select(r)` is the position of the
`r`-th one of the bitmap. -/
def denseSelect (buf : List Nat) (r : Nat) : Nat :=
  (setBitPositions (fun w => denseContains buf w)).getD r 0

/-- Forward scan used by the resumed select iterator: starting at `pos`,
find the `k`-th position (0-based) at which `f` holds, with `fuel`
bounding the scan. -/
def scanFrom (f : Nat → Bool) : Nat → Nat → Nat → Nat
  | pos, _, 0 => pos
  | pos, k, fuel + 1 =>
    if f pos then
      match k with
      | 0 => pos
      | k' + 1 => scanFrom f (pos + 1) k' fuel
    else scanFrom f (pos + 1) k fuel

/-- Modelled from the spec: the dense `select_iter` consumes ranks in
nondecreasing order and resumes scanning from the 64-bit word containing
the last position found, using the per-word cumulative-rank metadata
(`countSetBelow` at the word start) to know how many ones precede the
resume point. -/
def denseSelectIterGo (f : Nat → Bool) : Nat → List Nat → List Nat
  | _, [] => []
  | wordStart, r :: rs =>
    let p := scanFrom f wordStart (r - countSetBelow f wordStart) (65536 - wordStart)
    p :: denseSelectIterGo f (64 * (p / 64)) rs

/-- Dense `select_iter` over an opened buffer, starting from word 0. -/
def denseSelectIter (buf : List Nat) (ranks : List Nat) : List Nat :=
  denseSelectIterGo (fun w => denseContains buf w) 0 ranks

/-- Modelled from the spec: `SparseBlockCodec::serialize` writes each
value as two little-endian bytes. -/
def sparseSerialize : List Nat → List Nat
  | [] => []
  | v :: rest => v % 256 :: v / 256 :: sparseSerialize rest

/-- Decode a sparse payload back into its list of 16-bit values. -/
def sparseDecode : List Nat → List Nat
  | b0 :: b1 :: rest => (b0 + 256 * b1) :: sparseDecode rest
  | _ => []

/-- Modelled from the spec: sparse `contains(off)` searches the sorted
value sequence for `off`. -/
def sparseContains (buf : List Nat) (v : Nat) : Bool :=
  (sparseDecode buf).contains v

/-- Position search returning the index of the first occurrence of `v`,
offset by the accumulator `k`. -/
def sparseRankAux (v : Nat) : List Nat → Nat → Option Nat
  | [], _ => none
  | x :: rest, k => if x = v then some k else sparseRankAux v rest (k + 1)

/-- Modelled from the spec: sparse `rank_if_exists(off)` is the position
of `off` among the stored values if present. -/
def sparseRankIfExists (buf : List Nat) (v : Nat) : Option Nat :=
  sparseRankAux v (sparseDecode buf) 0

/-- Modelled from the spec: sparse `select(r)` is a straight indexed read
of the `r`-th stored value. -/
def sparseSelect (buf : List Nat) (r : Nat) : Nat :=
  (sparseDecode buf).getD r 0

/-- Modelled from the spec: sparse `select_iter` is a straight indexed
read per input rank. -/
def sparseSelectIter (buf : List Nat) (ranks : List Nat) : List Nat :=
  ranks.map (fun r => (sparseDecode buf).getD r 0)

theorem denseSerialize_length (vals : List Nat) :
    (denseSerialize vals).length = 8192 := by
  simp [denseSerialize, DENSE_BLOCK_NUM_BYTES]

theorem sparseSerialize_length (vals : List Nat) :
    (sparseSerialize vals).length = 2 * vals.length := by
  induction vals with
  | nil => rfl
  | cons v rest ih => simp [sparseSerialize, ih]; omega

/-! ## Correctness of the dense bitmap bit layout -/

theorem bitsToNat_testBit : ∀ (bs : List Bool) (j : Nat),
    (bitsToNat bs).testBit j = bs.getD j false := by
  intro bs
  induction bs with
  | nil =>
    intro j
    simp [bitsToNat, Nat.zero_testBit]
  | cons b rest ih =>
    intro j
    cases j with
    | zero =>
      rw [Nat.testBit_zero]
      cases b <;> simp [bitsToNat, Nat.add_mul_mod_self_left]
    | succ j =>
      rw [Nat.testBit_succ]
      have hdiv : ((if b then 1 else 0) + 2 * bitsToNat rest) / 2 = bitsToNat rest := by
        cases b <;> simp <;> omega
      simp only [bitsToNat, hdiv]
      exact ih j

theorem getD_map_range {α : Type} (f : Nat → α) (n j : Nat) (d : α) (h : j < n) :
    (((List.range n).map f).getD j d) = f j := by
  simp [List.getD_eq_getElem?_getD, List.getElem?_map, List.getElem?_range, h]

theorem denseByte_testBit (vals : List Nat) (i j : Nat) (hj : j < 8) :
    (denseByte vals i).testBit j = vals.contains (8 * i + j) := by
  rw [denseByte, bitsToNat_testBit]
  have : ((List.range 8).map (fun j => vals.contains (8 * i + j))).getD j false =
      vals.contains (8 * i + j) := getD_map_range _ 8 j false hj
  exact this

theorem denseContains_serialize (vals : List Nat) (v : Nat) (hv : v < 65536) :
    denseContains (denseSerialize vals) v = vals.contains v := by
  have hdiv : v / 8 < 8192 := by omega
  have hbyte : (denseSerialize vals).getD (v / 8) 0 = denseByte vals (v / 8) := by
    rw [denseSerialize]
    exact getD_map_range _ DENSE_BLOCK_NUM_BYTES (v / 8) 0 hdiv
  rw [denseContains, hbyte, denseByte_testBit vals (v / 8) (v % 8) (Nat.mod_lt _ (by omega))]
  have hsplit : 8 * (v / 8) + v % 8 = v := by omega
  rw [hsplit]

/-! ## Sorted-list machinery -/

theorem sorted_lt_eq_of_mem_iff {l₁ l₂ : List Nat} (h₁ : l₁.Pairwise (· < ·))
    (h₂ : l₂.Pairwise (· < ·)) (hm : ∀ a, a ∈ l₁ ↔ a ∈ l₂) : l₁ = l₂ := by
  haveI : IsAntisymm Nat (· < ·) := ⟨fun a b h h' => absurd h' (lt_asymm h)⟩
  have hn₁ : l₁.Nodup := h₁.imp (fun h => Nat.ne_of_lt h)
  have hn₂ : l₂.Nodup := h₂.imp (fun h => Nat.ne_of_lt h)
  exact List.eq_of_perm_of_sorted ((List.perm_ext_iff_of_nodup hn₁ hn₂).mpr hm) h₁ h₂

theorem setBitPositions_serialize (vals : List Nat) (hs : vals.Pairwise (· < ·))
    (hb : ∀ v ∈ vals, v < 65536) :
    setBitPositions (fun w => denseContains (denseSerialize vals) w) = vals := by
  apply sorted_lt_eq_of_mem_iff
  · exact (List.pairwise_lt_range 65536).sublist (List.filter_sublist _)
  · exact hs
  · intro a
    simp only [setBitPositions, List.mem_filter, List.mem_range]
    constructor
    · rintro ⟨ha, hf⟩
      rw [denseContains_serialize vals a ha] at hf
      exact List.elem_iff.mp hf
    · intro ha
      have hlt : a < 65536 := hb a ha
      refine ⟨hlt, ?_⟩
      rw [denseContains_serialize vals a hlt]
      exact List.elem_iff.mpr ha

theorem filter_lt_getD_eq_take (vals : List Nat) (hs : vals.Pairwise (· < ·)) :
    ∀ k, k < vals.length → vals.filter (fun x => x < vals.getD k 0) = vals.take k := by
  induction vals with
  | nil => intro k hk; simp at hk
  | cons x rest ih =>
    intro k hk
    rcases List.pairwise_cons.mp hs with ⟨hx, hrest⟩
    cases k with
    | zero =>
      simp only [List.getD_cons_zero, List.take_zero]
      have h1 : List.filter (fun y => decide (y < x)) rest = [] := by
        apply List.filter_eq_nil_iff.mpr
        intro a ha
        simp only [decide_eq_true_eq]
        have := hx a ha
        omega
      rw [List.filter_cons]
      simp [h1]
    | succ k =>
      have hk' : k < rest.length := by simpa using hk
      have hv : rest.getD k 0 ∈ rest := by
        rw [List.getD_eq_getElem rest 0 hk']
        exact List.getElem_mem hk'
      simp only [List.getD_cons_succ, List.take_succ_cons]
      rw [List.filter_cons]
      have : decide (x < rest.getD k 0) = true := by
        simp only [decide_eq_true_eq]
        exact hx _ hv
      rw [this]
      simp only [if_true]
      rw [ih hrest k hk']

theorem countSetBelow_serialize (vals : List Nat) (hs : vals.Pairwise (· < ·))
    (v : Nat) (hv : v ≤ 65536) :
    countSetBelow (fun w => denseContains (denseSerialize vals) w) v =
      (vals.filter (fun x => x < v)).length := by
  rw [countSetBelow]
  congr 1
  apply sorted_lt_eq_of_mem_iff
  · exact (List.pairwise_lt_range v).sublist (List.filter_sublist _)
  · exact hs.sublist (List.filter_sublist _)
  · intro a
    simp only [List.mem_filter, List.mem_range, decide_eq_true_eq]
    constructor
    · rintro ⟨ha, hf⟩
      rw [denseContains_serialize vals a (by omega)] at hf
      exact ⟨List.elem_iff.mp hf, ha⟩
    · rintro ⟨ha, hlt⟩
      refine ⟨hlt, ?_⟩
      rw [denseContains_serialize vals a (by omega)]
      exact List.elem_iff.mpr ha

theorem sorted_getD_strictMono (vals : List Nat) (hs : vals.Pairwise (· < ·)) :
    ∀ i k, i < k → k < vals.length → vals.getD i 0 < vals.getD k 0 := by
  intro i k hik hk
  have hi : i < vals.length := lt_trans hik hk
  rw [List.getD_eq_getElem vals 0 hi, List.getD_eq_getElem vals 0 hk]
  exact List.pairwise_iff_getElem.mp hs i k hi hk hik

theorem denseSelect_serialize (vals : List Nat) (hs : vals.Pairwise (· < ·))
    (hb : ∀ v ∈ vals, v < 65536) (k : Nat) :
    denseSelect (denseSerialize vals) k = vals.getD k 0 := by
  rw [denseSelect, setBitPositions_serialize vals hs hb]

theorem denseRankIfExists_serialize (vals : List Nat) (hs : vals.Pairwise (· < ·))
    (v : Nat) (hv : v < 65536) (k : Nat) :
    (denseRankIfExists (denseSerialize vals) v = some k ↔
      (k < vals.length ∧ vals.getD k 0 = v)) := by
  rw [denseRankIfExists]
  by_cases hmem : v ∈ vals
  · have hcont : denseContains (denseSerialize vals) v = true := by
      rw [denseContains_serialize vals v hv]
      exact List.elem_iff.mpr hmem
    rw [hcont]
    simp only [if_true]
    obtain ⟨⟨i, hi⟩, hgi⟩ := List.mem_iff_get.mp hmem
    have hgD : vals.getD i 0 = v := by
      rw [List.getD_eq_getElem vals 0 hi]
      rw [← hgi]
      rfl
    have hcount : countSetBelow (fun w => denseContains (denseSerialize vals) w) v = i := by
      rw [countSetBelow_serialize vals hs v (le_of_lt hv), ← hgD,
        filter_lt_getD_eq_take vals hs i hi]
      simp [List.length_take]
      omega
    rw [hcount]
    constructor
    · intro h
      have hki : k = i := by injection h with h; omega
      subst hki
      exact ⟨hi, hgD⟩
    · rintro ⟨hk, hgk⟩
      have hki : k = i := by
        rcases Nat.lt_trichotomy k i with hlt | heq | hgt
        · have := sorted_getD_strictMono vals hs k i hlt hi
          rw [hgk, hgD] at this
          omega
        · exact heq
        · have := sorted_getD_strictMono vals hs i k hgt hk
          rw [hgk, hgD] at this
          omega
      subst hki
      rfl
  · have hcont : denseContains (denseSerialize vals) v = false := by
      rw [denseContains_serialize vals v hv]
      cases h : vals.contains v
      · rfl
      · exact absurd (List.elem_iff.mp h) hmem
    rw [hcont]
    constructor
    · intro h
      exact absurd h (by simp)
    · rintro ⟨hk, hgk⟩
      exfalso
      apply hmem
      rw [← hgk, List.getD_eq_getElem vals 0 hk]
      exact List.getElem_mem hk

/-! ## Sparse codec correctness -/

theorem sparseDecode_serialize (vals : List Nat) (hb : ∀ v ∈ vals, v < 65536) :
    sparseDecode (sparseSerialize vals) = vals := by
  induction vals with
  | nil => rfl
  | cons v rest ih =>
    have hrest : ∀ w ∈ rest, w < 65536 := fun w hw => hb w (List.mem_cons_of_mem _ hw)
    simp only [sparseSerialize, sparseDecode, ih hrest]
    have hv : v < 65536 := hb v (List.mem_cons_self v rest)
    have : v % 256 + 256 * (v / 256) = v := by omega
    rw [this]

theorem sparseRankAux_some (v : Nat) : ∀ (l : List Nat) (c m : Nat),
    sparseRankAux v l c = some m → ∃ k, m = c + k ∧ k < l.length ∧ l.getD k 0 = v := by
  intro l
  induction l with
  | nil =>
    intro c m h
    exact absurd h (by simp [sparseRankAux])
  | cons x rest ih =>
    intro c m h
    rw [sparseRankAux] at h
    by_cases hx : x = v
    · rw [if_pos hx] at h
      injection h with h
      exact ⟨0, by omega, by simp, by simp [hx]⟩
    · rw [if_neg hx] at h
      obtain ⟨k, hm, hk, hg⟩ := ih (c + 1) m h
      refine ⟨k + 1, by omega, by simp; omega, ?_⟩
      simpa [List.getD_cons_succ] using hg

theorem sparseRankAux_of_getD (v : Nat) : ∀ (l : List Nat), l.Pairwise (· < ·) →
    ∀ c k, k < l.length → l.getD k 0 = v → sparseRankAux v l c = some (c + k) := by
  intro l
  induction l with
  | nil =>
    intro _ c k hk
    simp at hk
  | cons x rest ih =>
    intro hs c k hk hg
    rcases List.pairwise_cons.mp hs with ⟨hx, hrest⟩
    rw [sparseRankAux]
    cases k with
    | zero =>
      simp only [List.getD_cons_zero] at hg
      rw [if_pos hg]
      rfl
    | succ k =>
      have hk' : k < rest.length := by simpa using hk
      simp only [List.getD_cons_succ] at hg
      have hxv : x ≠ v := by
        intro hxe
        have hmem : rest.getD k 0 ∈ rest := by
          rw [List.getD_eq_getElem rest 0 hk']
          exact List.getElem_mem hk'
        have hlt := hx _ hmem
        rw [hg, ← hxe] at hlt
        omega
      rw [if_neg hxv, ih hrest (c + 1) k hk' hg]
      have : c + 1 + k = c + (k + 1) := by omega
      rw [this]

theorem sparseRankAux_none (v : Nat) : ∀ (l : List Nat) (c : Nat),
    (sparseRankAux v l c = none ↔ v ∉ l) := by
  intro l
  induction l with
  | nil =>
    intro c
    simp [sparseRankAux]
  | cons x rest ih =>
    intro c
    rw [sparseRankAux]
    by_cases hx : x = v
    · rw [if_pos hx]
      simp [hx]
    · rw [if_neg hx]
      rw [ih (c + 1)]
      constructor
      · intro h hmem
        rcases List.mem_cons.mp hmem with he | hm
        · exact hx he.symm
        · exact h hm
      · intro h hm
        exact h (List.mem_cons_of_mem _ hm)

theorem sparseRankIfExists_serialize (vals : List Nat) (hs : vals.Pairwise (· < ·))
    (hb : ∀ v ∈ vals, v < 65536) (v k : Nat) :
    (sparseRankIfExists (sparseSerialize vals) v = some k ↔
      (k < vals.length ∧ vals.getD k 0 = v)) := by
  rw [sparseRankIfExists, sparseDecode_serialize vals hb]
  constructor
  · intro h
    obtain ⟨j, hm, hj, hg⟩ := sparseRankAux_some v vals 0 k h
    have hkj : k = j := by omega
    subst hkj
    exact ⟨hj, hg⟩
  · rintro ⟨hk, hg⟩
    simpa using sparseRankAux_of_getD v vals hs 0 k hk hg

theorem sparseContains_serialize (vals : List Nat) (hb : ∀ v ∈ vals, v < 65536) (v : Nat) :
    sparseContains (sparseSerialize vals) v = vals.contains v := by
  rw [sparseContains, sparseDecode_serialize vals hb]

theorem sparseSelect_serialize (vals : List Nat) (hb : ∀ v ∈ vals, v < 65536) (k : Nat) :
    sparseSelect (sparseSerialize vals) k = vals.getD k 0 := by
  rw [sparseSelect, sparseDecode_serialize vals hb]

theorem denseRankIfExists_none (vals : List Nat) (v : Nat) (hv : v < 65536) :
    (denseRankIfExists (denseSerialize vals) v = none ↔ v ∉ vals) := by
  rw [denseRankIfExists]
  by_cases hmem : v ∈ vals
  · have hcont : denseContains (denseSerialize vals) v = true := by
      rw [denseContains_serialize vals v hv]
      exact List.elem_iff.mpr hmem
    rw [hcont]
    simp [hmem]
  · have hcont : denseContains (denseSerialize vals) v = false := by
      rw [denseContains_serialize vals v hv]
      cases h : vals.contains v
      · rfl
      · exact absurd (List.elem_iff.mp h) hmem
    rw [hcont]
    simp [hmem]

theorem sparseRankIfExists_none (vals : List Nat) (hb : ∀ v ∈ vals, v < 65536) (v : Nat) :
    (sparseRankIfExists (sparseSerialize vals) v = none ↔ v ∉ vals) := by
  rw [sparseRankIfExists, sparseDecode_serialize vals hb]
  exact sparseRankAux_none v vals 0

/-- C1: serializing a sorted duplicate-free list of u16 values with either the
dense or the sparse block codec and reopening the buffer yields a set where,
for every `v < 65536`, `contains v` holds iff `v ∈ vals`; `rank_if_exists v`
is `some k` iff `vals[k] = v` (and `none` when `v ∉ vals`); and for every
`k < |vals|`, `select k = vals[k]`. -/
theorem claim_C1_set_codec_semantics (vals : List Nat) (hs : vals.Pairwise (· < ·))
    (hb : ∀ v ∈ vals, v < 65536) :
    (∀ v, v < 65536 →
      ((denseContains (denseSerialize vals) v = true ↔ v ∈ vals) ∧
       (sparseContains (sparseSerialize vals) v = true ↔ v ∈ vals)) ∧
      ((∀ k, denseRankIfExists (denseSerialize vals) v = some k ↔
          (k < vals.length ∧ vals.getD k 0 = v)) ∧
       (denseRankIfExists (denseSerialize vals) v = none ↔ v ∉ vals) ∧
       (∀ k, sparseRankIfExists (sparseSerialize vals) v = some k ↔
          (k < vals.length ∧ vals.getD k 0 = v)) ∧
       (sparseRankIfExists (sparseSerialize vals) v = none ↔ v ∉ vals))) ∧
    (∀ k, k < vals.length →
      denseSelect (denseSerialize vals) k = vals.getD k 0 ∧
      sparseSelect (sparseSerialize vals) k = vals.getD k 0) := by
  refine ⟨fun v hv => ⟨⟨?_, ?_⟩, ?_, ?_, ?_, ?_⟩, fun k _hk => ⟨?_, ?_⟩⟩
  · rw [denseContains_serialize vals v hv]
    exact List.elem_iff
  · rw [sparseContains_serialize vals hb v]
    exact List.elem_iff
  · exact fun k => denseRankIfExists_serialize vals hs v hv k
  · exact denseRankIfExists_none vals v hv
  · exact fun k => sparseRankIfExists_serialize vals hs hb v k
  · exact sparseRankIfExists_none vals hb v
  · exact denseSelect_serialize vals hs hb k
  · exact sparseSelect_serialize vals hb k

/-- Witness for C1 at the concrete input `[1, 3, 17]`. -/
theorem claim_C1_set_codec_semantics_witness :
    ([1, 3, 17] : List Nat).Pairwise (· < ·) ∧ (∀ v ∈ ([1, 3, 17] : List Nat), v < 65536) ∧
    ((∀ v, v < 65536 →
      ((denseContains (denseSerialize [1, 3, 17]) v = true ↔ v ∈ ([1, 3, 17] : List Nat)) ∧
       (sparseContains (sparseSerialize [1, 3, 17]) v = true ↔ v ∈ ([1, 3, 17] : List Nat))) ∧
      ((∀ k, denseRankIfExists (denseSerialize [1, 3, 17]) v = some k ↔
          (k < ([1, 3, 17] : List Nat).length ∧ ([1, 3, 17] : List Nat).getD k 0 = v)) ∧
       (denseRankIfExists (denseSerialize [1, 3, 17]) v = none ↔ v ∉ ([1, 3, 17] : List Nat)) ∧
       (∀ k, sparseRankIfExists (sparseSerialize [1, 3, 17]) v = some k ↔
          (k < ([1, 3, 17] : List Nat).length ∧ ([1, 3, 17] : List Nat).getD k 0 = v)) ∧
       (sparseRankIfExists (sparseSerialize [1, 3, 17]) v = none ↔ v ∉ ([1, 3, 17] : List Nat)))) ∧
    (∀ k, k < ([1, 3, 17] : List Nat).length →
      denseSelect (denseSerialize [1, 3, 17]) k = ([1, 3, 17] : List Nat).getD k 0 ∧
      sparseSelect (sparseSerialize [1, 3, 17]) k = ([1, 3, 17] : List Nat).getD k 0)) :=
  ⟨by decide, by decide, claim_C1_set_codec_semantics [1, 3, 17] (by decide) (by decide)⟩

/-- C4: for every sorted duplicate-free list of u16 values (including the
empty list), the dense codec always produces exactly 8192 bytes and the
sparse codec exactly `2 * |vals|` bytes. -/
theorem claim_C4_serialized_lengths (vals : List Nat) (hs : vals.Pairwise (· < ·))
    (hb : ∀ v ∈ vals, v < 65536) :
    (denseSerialize vals).length = 8192 ∧
    (sparseSerialize vals).length = 2 * vals.length := by
  exact ⟨denseSerialize_length vals, sparseSerialize_length vals⟩

/-- Witness for C4 at the empty list and at `[1, 3, 17]`. -/
theorem claim_C4_serialized_lengths_witness :
    (([] : List Nat).Pairwise (· < ·) ∧ (∀ v ∈ ([] : List Nat), v < 65536) ∧
      ((denseSerialize []).length = 8192 ∧ (sparseSerialize ([] : List Nat)).length = 2 * ([] : List Nat).length)) ∧
    (([1, 3, 17] : List Nat).Pairwise (· < ·) ∧ (∀ v ∈ ([1, 3, 17] : List Nat), v < 65536) ∧
      ((denseSerialize [1, 3, 17]).length = 8192 ∧
        (sparseSerialize [1, 3, 17]).length = 2 * ([1, 3, 17] : List Nat).length)) :=
  ⟨⟨by decide, by decide, claim_C4_serialized_lengths [] (by decide) (by decide)⟩,
   ⟨by decide, by decide, claim_C4_serialized_lengths [1, 3, 17] (by decide) (by decide)⟩⟩

/-! ## Resumed select-iterator refinement (C3) -/

theorem countSetBelow_succ (f : Nat → Bool) (pos : Nat) :
    countSetBelow f (pos + 1) = countSetBelow f pos + (if f pos then 1 else 0) := by
  rw [countSetBelow, countSetBelow, List.range_succ, List.filter_append]
  by_cases hf : f pos
  · simp [hf]
  · simp [hf]

theorem setBitPositions_pairwise (f : Nat → Bool) :
    (setBitPositions f).Pairwise (· < ·) :=
  (List.pairwise_lt_range 65536).sublist (List.filter_sublist _)

theorem countSetBelow_top (f : Nat → Bool) :
    countSetBelow f 65536 = (setBitPositions f).length := rfl

theorem getD_append_cons {α : Type} (l₁ l₂ : List α) (x d : α) :
    (l₁ ++ x :: l₂).getD l₁.length d = x := by
  induction l₁ with
  | nil => rfl
  | cons y ys ih => simpa using ih

theorem setBitPositions_getD_of_mem (f : Nat → Bool) (pos : Nat) (hf : f pos = true)
    (hpos : pos < 65536) :
    (setBitPositions f).getD (countSetBelow f pos) 0 = pos := by
  have hsplit : setBitPositions f =
      (List.range pos).filter f ++ pos :: ((List.range 65536).drop (pos + 1)).filter f := by
    rw [setBitPositions]
    conv =>
      lhs
      rw [← List.take_append_drop (pos + 1) (List.range 65536)]
    rw [List.filter_append, List.take_range]
    have hmin : min (pos + 1) 65536 = pos + 1 := by omega
    rw [hmin, List.range_succ, List.filter_append]
    simp [hf]
  rw [hsplit]
  have hcount : countSetBelow f pos = ((List.range pos).filter f).length := rfl
  rw [hcount]
  exact getD_append_cons _ _ pos 0

theorem countSetBelow_eq_filter (f : Nat → Bool) (pos : Nat) (hpos : pos ≤ 65536) :
    countSetBelow f pos = ((setBitPositions f).filter (fun x => x < pos)).length := by
  have hlist : (List.range pos).filter f = (setBitPositions f).filter (fun x => x < pos) := by
    apply sorted_lt_eq_of_mem_iff
    · exact (List.pairwise_lt_range pos).sublist (List.filter_sublist _)
    · exact (setBitPositions_pairwise f).sublist (List.filter_sublist _)
    · intro a
      simp only [List.mem_filter, List.mem_range, setBitPositions, decide_eq_true_eq]
      constructor
      · rintro ⟨ha, hfa⟩
        exact ⟨⟨by omega, hfa⟩, ha⟩
      · rintro ⟨⟨_, hfa⟩, ha⟩
        exact ⟨ha, hfa⟩
  rw [countSetBelow, hlist]

theorem filter_length_mono {l : List Nat} {p q : Nat → Bool}
    (h : ∀ x ∈ l, p x = true → q x = true) :
    (l.filter p).length ≤ (l.filter q).length := by
  induction l with
  | nil => simp
  | cons x rest ih =>
    have hrest : ∀ y ∈ rest, p y = true → q y = true :=
      fun y hy => h y (List.mem_cons_of_mem _ hy)
    have ihr := ih hrest
    by_cases hp : p x = true
    · have hq := h x (List.mem_cons_self x rest) hp
      simp only [List.filter_cons, hp, hq, if_true, List.length_cons]
      omega
    · have hp' : p x = false := by
        cases hpx : p x with
        | false => rfl
        | true => exact absurd hpx hp
      by_cases hq : q x = true
      · simp only [List.filter_cons, hp', hq, Bool.false_eq_true, if_false, if_true,
          List.length_cons]
        omega
      · have hq' : q x = false := by
          cases hqx : q x with
          | false => rfl
          | true => exact absurd hqx hq
        simp only [List.filter_cons, hp', hq', Bool.false_eq_true, if_false]
        omega

theorem getD_mem_of_lt (l : List Nat) (r : Nat) (hr : r < l.length) :
    l.getD r 0 ∈ l := by
  rw [List.getD_eq_getElem l 0 hr]
  exact List.getElem_mem hr

theorem setBitPositions_getD_lt (f : Nat → Bool) (r : Nat)
    (hr : r < (setBitPositions f).length) :
    (setBitPositions f).getD r 0 < 65536 := by
  have hmem := getD_mem_of_lt (setBitPositions f) r hr
  rw [setBitPositions] at hmem
  exact List.mem_range.mp (List.mem_filter.mp hmem).1

theorem countSetBelow_le_of_le_getD (f : Nat → Bool) (pos r : Nat)
    (hr : r < (setBitPositions f).length)
    (hle : pos ≤ (setBitPositions f).getD r 0) :
    countSetBelow f pos ≤ r := by
  have hpos : pos ≤ 65536 := by
    have := setBitPositions_getD_lt f r hr
    omega
  rw [countSetBelow_eq_filter f pos hpos]
  have h1 : ((setBitPositions f).filter (fun x => x < pos)).length ≤
      ((setBitPositions f).filter (fun x => x < (setBitPositions f).getD r 0)).length := by
    apply filter_length_mono
    intro x _ hx
    simp only [decide_eq_true_eq] at *
    omega
  have h2 : (setBitPositions f).filter (fun x => x < (setBitPositions f).getD r 0) =
      (setBitPositions f).take r :=
    filter_lt_getD_eq_take (setBitPositions f) (setBitPositions_pairwise f) r hr
  rw [h2] at h1
  have h3 : ((setBitPositions f).take r).length ≤ r := by
    simp [List.length_take]
  omega

theorem scanFrom_spec (f : Nat → Bool) : ∀ (fuel pos k : Nat),
    pos + fuel = 65536 →
    countSetBelow f pos + k < (setBitPositions f).length →
    scanFrom f pos k fuel = (setBitPositions f).getD (countSetBelow f pos + k) 0 := by
  intro fuel
  induction fuel with
  | zero =>
    intro pos k hpos hlt
    exfalso
    have hp : pos = 65536 := by omega
    subst hp
    rw [countSetBelow_top] at hlt
    omega
  | succ fuel ih =>
    intro pos k hpos hlt
    by_cases hf : f pos = true
    · cases k with
      | zero =>
        have hpos' : pos < 65536 := by omega
        have := setBitPositions_getD_of_mem f pos hf hpos'
        simp only [scanFrom, hf, if_true, Nat.add_zero]
        exact this.symm
      | succ k =>
        have h1 : countSetBelow f (pos + 1) = countSetBelow f pos + 1 := by
          rw [countSetBelow_succ]
          simp [hf]
        have hrec := ih (pos + 1) k (by omega) (by omega)
        rw [h1] at hrec
        simp only [scanFrom, hf, if_true]
        rw [hrec]
        have harg : countSetBelow f pos + 1 + k = countSetBelow f pos + (k + 1) := by omega
        rw [harg]
    · have hf' : f pos = false := by
        cases hfx : f pos with
        | false => rfl
        | true => exact absurd hfx hf
      have h1 : countSetBelow f (pos + 1) = countSetBelow f pos := by
        rw [countSetBelow_succ]
        simp [hf']
      have hrec := ih (pos + 1) k (by omega) (by omega)
      rw [h1] at hrec
      simp only [scanFrom, hf', Bool.false_eq_true, if_false]
      exact hrec

theorem sorted_getD_mono (vals : List Nat) (hs : vals.Pairwise (· < ·)) (i k : Nat)
    (hik : i ≤ k) (hk : k < vals.length) : vals.getD i 0 ≤ vals.getD k 0 := by
  rcases Nat.lt_or_ge i k with hlt | hge
  · exact le_of_lt (sorted_getD_strictMono vals hs i k hlt hk)
  · have : i = k := by omega
    subst this
    exact le_refl _

theorem denseSelectIterGo_spec (f : Nat → Bool) : ∀ (ranks : List Nat) (wordStart : Nat),
    ranks.Pairwise (· ≤ ·) →
    (∀ r ∈ ranks, r < (setBitPositions f).length) →
    (∀ r ∈ ranks, wordStart ≤ (setBitPositions f).getD r 0) →
    denseSelectIterGo f wordStart ranks =
      ranks.map (fun r => (setBitPositions f).getD r 0) := by
  intro ranks
  induction ranks with
  | nil =>
    intro wordStart _ _ _
    rfl
  | cons r rs ih =>
    intro wordStart hpair hlen hws
    rcases List.pairwise_cons.mp hpair with ⟨hr, hrs⟩
    have hrlen : r < (setBitPositions f).length := hlen r (List.mem_cons_self r rs)
    have hwr : wordStart ≤ (setBitPositions f).getD r 0 := hws r (List.mem_cons_self r rs)
    have hcle : countSetBelow f wordStart ≤ r :=
      countSetBelow_le_of_le_getD f wordStart r hrlen hwr
    have hw65 : wordStart ≤ 65536 := by
      have := setBitPositions_getD_lt f r hrlen
      omega
    have hscan : scanFrom f wordStart (r - countSetBelow f wordStart) (65536 - wordStart) =
        (setBitPositions f).getD r 0 := by
      have hspec := scanFrom_spec f (65536 - wordStart) wordStart
        (r - countSetBelow f wordStart) (by omega) (by omega)
      rw [hspec]
      have : countSetBelow f wordStart + (r - countSetBelow f wordStart) = r := by omega
      rw [this]
    simp only [denseSelectIterGo, hscan, List.map_cons]
    refine congrArg _ ?_
    apply ih
    · exact hrs
    · exact fun q hq => hlen q (List.mem_cons_of_mem _ hq)
    · intro q hq
      have hq1 : r ≤ q := hr q hq
      have hq2 : q < (setBitPositions f).length := hlen q (List.mem_cons_of_mem _ hq)
      have hmono : (setBitPositions f).getD r 0 ≤ (setBitPositions f).getD q 0 :=
        sorted_getD_mono (setBitPositions f) (setBitPositions_pairwise f) r q hq1 hq2
      have hword : 64 * ((setBitPositions f).getD r 0 / 64) ≤ (setBitPositions f).getD r 0 := by
        omega
      omega

/-- C3: for every serialized set and every monotonically non-decreasing rank
sequence with ranks below the set size, the resumed-scan `select_iter`
produces exactly as many outputs as input ranks, and those outputs equal the
naive per-element `select` applied to each rank, for both codecs. -/
theorem claim_C3_select_iter_matches_select (vals : List Nat) (hs : vals.Pairwise (· < ·))
    (hb : ∀ v ∈ vals, v < 65536) (ranks : List Nat) (hmono : ranks.Pairwise (· ≤ ·))
    (hlt : ∀ r ∈ ranks, r < vals.length) :
    (denseSelectIter (denseSerialize vals) ranks =
       ranks.map (fun r => denseSelect (denseSerialize vals) r) ∧
     (denseSelectIter (denseSerialize vals) ranks).length = ranks.length) ∧
    (sparseSelectIter (sparseSerialize vals) ranks =
       ranks.map (fun r => sparseSelect (sparseSerialize vals) r) ∧
     (sparseSelectIter (sparseSerialize vals) ranks).length = ranks.length) := by
  have hset : setBitPositions (fun w => denseContains (denseSerialize vals) w) = vals :=
    setBitPositions_serialize vals hs hb
  have hdense : denseSelectIter (denseSerialize vals) ranks =
      ranks.map (fun r => denseSelect (denseSerialize vals) r) := by
    rw [denseSelectIter]
    rw [denseSelectIterGo_spec (fun w => denseContains (denseSerialize vals) w) ranks 0 hmono
      (by rw [hset]; exact hlt) (fun r _ => Nat.zero_le _)]
    rfl
  have hsparse : sparseSelectIter (sparseSerialize vals) ranks =
      ranks.map (fun r => sparseSelect (sparseSerialize vals) r) := rfl
  refine ⟨⟨hdense, ?_⟩, ⟨hsparse, ?_⟩⟩
  · rw [hdense, List.length_map]
  · rw [hsparse, List.length_map]

/-- Witness for C3 at `vals = [1, 3, 17, 32, 30000, 30001]` with rank
sequence `[0, 1, 2, 5]`, the concrete scenario of the repository test. -/
theorem claim_C3_select_iter_matches_select_witness :
    ([1, 3, 17, 32, 30000, 30001] : List Nat).Pairwise (· < ·) ∧
    (∀ v ∈ ([1, 3, 17, 32, 30000, 30001] : List Nat), v < 65536) ∧
    ([0, 1, 2, 5] : List Nat).Pairwise (· ≤ ·) ∧
    (∀ r ∈ ([0, 1, 2, 5] : List Nat), r < ([1, 3, 17, 32, 30000, 30001] : List Nat).length) ∧
    ((denseSelectIter (denseSerialize [1, 3, 17, 32, 30000, 30001]) [0, 1, 2, 5] =
       ([0, 1, 2, 5] : List Nat).map
         (fun r => denseSelect (denseSerialize [1, 3, 17, 32, 30000, 30001]) r) ∧
     (denseSelectIter (denseSerialize [1, 3, 17, 32, 30000, 30001]) [0, 1, 2, 5]).length =
       ([0, 1, 2, 5] : List Nat).length) ∧
    (sparseSelectIter (sparseSerialize [1, 3, 17, 32, 30000, 30001]) [0, 1, 2, 5] =
       ([0, 1, 2, 5] : List Nat).map
         (fun r => sparseSelect (sparseSerialize [1, 3, 17, 32, 30000, 30001]) r) ∧
     (sparseSelectIter (sparseSerialize [1, 3, 17, 32, 30000, 30001]) [0, 1, 2, 5]).length =
       ([0, 1, 2, 5] : List Nat).length)) :=
  ⟨by decide, by decide, by decide, by decide,
   claim_C3_select_iter_matches_select [1, 3, 17, 32, 30000, 30001] (by decide) (by decide)
     [0, 1, 2, 5] (by decide) (by decide)⟩

/-! ## Column operations and the cardinality classifier (spec section 4.C) -/

/-- The two symbols of a per-column operation log. -/
inductive ColumnOperation (α : Type) where
  | newDoc (doc : Nat)
  | value (v : α)
deriving DecidableEq, Repr

/-- The three cardinality classes of a column. -/
inductive Cardinality where
  | full
  | optional
  | multivalued
deriving DecidableEq, Repr

/-- On-disk byte code of a cardinality, per the external-interface table. -/
def Cardinality.toCode : Cardinality → Nat
  | Cardinality.full => 0
  | Cardinality.optional => 1
  | Cardinality.multivalued => 2

/-- Modelled from the spec: `ColumnWriter` state, section 4.C — the last
recorded row id, the two running counters and the operation log. The
`ColumnWriter` implementation lives in `writer/column_writers.rs`, which is
not among the sources at hand (only its tests in `writer/mod.rs` are). -/
structure ColumnWriter (α : Type) where
  last_doc_opt : Option Nat
  num_rows_with_values : Nat
  total_values : Nat
  ops : List (ColumnOperation α)

/-- The freshly created column writer. -/
def ColumnWriter.empty {α : Type} : ColumnWriter α :=
  ⟨none, 0, 0, []⟩

/-- Modelled from the spec: `record(doc, value)` pushes `NewDoc(doc)` when
`doc` differs from the last recorded row id (or this is the first record),
then pushes `Value(value)`. -/
def ColumnWriter.record {α : Type} (w : ColumnWriter α) (doc : Nat) (v : α) :
    ColumnWriter α :=
  let w1 :=
    if w.last_doc_opt = some doc then w
    else
      { w with
        last_doc_opt := some doc
        num_rows_with_values := w.num_rows_with_values + 1
        ops := w.ops ++ [ColumnOperation.newDoc doc] }
  { w1 with
    total_values := w1.total_values + 1
    ops := w1.ops ++ [ColumnOperation.value v] }

/-- Modelled from the spec: `get_cardinality(num_docs)` compares the two
counters against `num_docs`. -/
def ColumnWriter.get_cardinality {α : Type} (w : ColumnWriter α) (num_docs : Nat) :
    Cardinality :=
  if w.total_values = num_docs ∧ w.num_rows_with_values = num_docs then Cardinality.full
  else if w.total_values = w.num_rows_with_values then Cardinality.optional
  else Cardinality.multivalued

/-- Replay a list of `(doc, value)` record calls against a fresh writer. -/
def ColumnWriter.applyRecords {α : Type} (recs : List (Nat × α)) : ColumnWriter α :=
  recs.foldl (fun w dv => w.record dv.1 dv.2) ColumnWriter.empty

/-- C2: on every writer state reached by any sequence of `record` calls and
for every `num_docs`, `get_cardinality` returns `Full` when both counters
equal `num_docs`, else `Optional` when `total_values` equals
`num_rows_with_values`, else `Multivalued`. -/
theorem claim_C2_get_cardinality (recs : List (Nat × Nat)) (num_docs : Nat) :
    (ColumnWriter.applyRecords recs).get_cardinality num_docs =
      (if (ColumnWriter.applyRecords recs).total_values = num_docs ∧
          (ColumnWriter.applyRecords recs).num_rows_with_values = num_docs then
        Cardinality.full
      else if (ColumnWriter.applyRecords recs).total_values =
          (ColumnWriter.applyRecords recs).num_rows_with_values then
        Cardinality.optional
      else Cardinality.multivalued) := rfl

/-! ## Reader surface: Column and num_rows (column/mod.rs) -/

/-- Modelled from the spec: the row span recorded by an optional index
(`OptionalIndex` itself is outside the sources at hand). -/
structure OptionalIndex where
  num_rows : Nat

/-- The three on-read column index shapes; the multivalued variant holds
the start-offset column, whose value count is `num_docs + 1`. -/
inductive ColumnIndex where
  | full
  | optional (oi : OptionalIndex)
  | multivalued (startsValues : List Nat)

/-- A column combines an index with a value vector, as in `column/mod.rs`. -/
structure Column (α : Type) where
  idx : ColumnIndex
  values : List α

/-- Embeds `Column::num_rows` from `column/mod.rs`: Full counts the values,
Optional delegates to the optional index, Multivalued is the start column
value count minus one. -/
def Column.num_rows {α : Type} (c : Column α) : Nat :=
  match c.idx with
  | ColumnIndex.full => c.values.length
  | ColumnIndex.optional oi => oi.num_rows
  | ColumnIndex.multivalued startsValues => startsValues.length - 1

/-- C8: `num_rows` is determined by the index variant — `Full` gives the
number of values, `Optional` the optional index row span, `Multivalued` the
length of the starts vector minus one (so `num_docs` when the starts vector
has `num_docs + 1` entries). -/
theorem claim_C8_num_rows (c : Column Nat) :
    (c.idx = ColumnIndex.full → c.num_rows = c.values.length) ∧
    (∀ oi, c.idx = ColumnIndex.optional oi → c.num_rows = oi.num_rows) ∧
    (∀ startsValues, c.idx = ColumnIndex.multivalued startsValues →
      (c.num_rows = startsValues.length - 1 ∧
        ∀ num_docs, startsValues.length = num_docs + 1 → c.num_rows = num_docs)) := by
  refine ⟨?_, ?_, ?_⟩
  · intro h
    rw [Column.num_rows, h]
  · intro oi h
    rw [Column.num_rows, h]
  · intro startsValues h
    constructor
    · rw [Column.num_rows, h]
    · intro num_docs hlen
      rw [Column.num_rows, h]
      simp only []
      omega

/-- Witness for C8 on one concrete column per index variant. -/
theorem claim_C8_num_rows_witness :
    (Column.mk ColumnIndex.full [5, 7] : Column Nat).num_rows = 2 ∧
    (Column.mk (ColumnIndex.optional ⟨3⟩) ([] : List Nat)).num_rows = 3 ∧
    (Column.mk (ColumnIndex.multivalued [0, 2, 2, 5]) [10, 11, 12, 13, 14]
      : Column Nat).num_rows = 3 :=
  ⟨(claim_C8_num_rows (Column.mk ColumnIndex.full [5, 7])).1 rfl,
   (claim_C8_num_rows (Column.mk (ColumnIndex.optional ⟨3⟩) [])).2.1 ⟨3⟩ rfl,
   ((claim_C8_num_rows (Column.mk (ColumnIndex.multivalued [0, 2, 2, 5])
      [10, 11, 12, 13, 14])).2.2 [0, 2, 2, 5] rfl).2 3 rfl⟩

/-! ## Byte-string lexicographic order -/

/-- Strict lexicographic comparison of byte strings, as `&[u8]` ordering
in the source. -/
def bytesLtB : List Nat → List Nat → Bool
  | [], [] => false
  | [], _ :: _ => true
  | _ :: _, [] => false
  | a :: as, b :: bs => if a < b then true else if b < a then false else bytesLtB as bs

/-- Reflexive closure used by the sorting routine. -/
def bytesLeB (a b : List Nat) : Bool := !(bytesLtB b a)

theorem bytesLtB_irrefl : ∀ a : List Nat, bytesLtB a a = false := by
  intro a
  induction a with
  | nil => rfl
  | cons x xs ih => simp [bytesLtB, ih]

theorem bytesLtB_asymm : ∀ a b : List Nat, bytesLtB a b = true → bytesLtB b a = false := by
  intro a
  induction a with
  | nil =>
    intro b hab
    cases b with
    | nil => exact absurd hab (by simp [bytesLtB])
    | cons y ys => rfl
  | cons x xs ih =>
    intro b hab
    cases b with
    | nil => exact absurd hab (by simp [bytesLtB])
    | cons y ys =>
      simp only [bytesLtB] at hab ⊢
      rcases Nat.lt_trichotomy x y with hxy | hxy | hxy
      · simp only [hxy, if_true] at hab
        have h1 : ¬ y < x := by omega
        simp [h1, hxy]
      · subst hxy
        simp only [lt_irrefl, if_false] at hab ⊢
        exact ih ys hab
      · have h1 : ¬ x < y := by omega
        simp [h1, hxy] at hab
  
theorem bytesLtB_trichotomy : ∀ a b : List Nat,
    bytesLtB a b = true ∨ a = b ∨ bytesLtB b a = true := by
  intro a
  induction a with
  | nil =>
    intro b
    cases b with
    | nil => right; left; rfl
    | cons y ys => left; rfl
  | cons x xs ih =>
    intro b
    cases b with
    | nil => right; right; rfl
    | cons y ys =>
      simp only [bytesLtB]
      rcases Nat.lt_trichotomy x y with hxy | hxy | hxy
      · left
        simp [hxy]
      · subst hxy
        rcases ih ys with h | h | h
        · left
          simp [h]
        · right; left
          rw [h]
        · right; right
          simp [h]
      · right; right
        simp [hxy]

theorem bytesLtB_trans : ∀ a b c : List Nat,
    bytesLtB a b = true → bytesLtB b c = true → bytesLtB a c = true := by
  intro a
  induction a with
  | nil =>
    intro b c hab hbc
    cases b with
    | nil => exact absurd hab (by simp [bytesLtB])
    | cons y ys =>
      cases c with
      | nil => exact absurd hbc (by simp [bytesLtB])
      | cons z zs => rfl
  | cons x xs ih =>
    intro b c hab hbc
    cases b with
    | nil => exact absurd hab (by simp [bytesLtB])
    | cons y ys =>
      cases c with
      | nil => exact absurd hbc (by simp [bytesLtB])
      | cons z zs =>
        simp only [bytesLtB] at hab hbc ⊢
        rcases Nat.lt_trichotomy x y with hxy | hxy | hxy
        · rcases Nat.lt_trichotomy y z with hyz | hyz | hyz
          · have : x < z := by omega
            simp [this]
          · subst hyz
            simp [hxy]
          · have h1 : ¬ y < z := by omega
            simp [h1, hyz] at hbc
        · subst hxy
          rcases Nat.lt_trichotomy x z with hxz | hxz | hxz
          · simp [hxz]
          · subst hxz
            simp only [lt_irrefl, if_false] at hab hbc ⊢
            exact ih ys zs hab hbc
          · have h1 : ¬ x < z := by omega
            simp [h1, hxz] at hbc
        · have h1 : ¬ x < y := by omega
          simp [h1, hxy] at hab

/-! ## Column type categories and the directory sort key -/

/-- The five column type categories, in the declaration order of the source
enum (which `derive(Ord)` uses). -/
inductive ColumnTypeCategory where
  | bool
  | str
  | numerical
  | ipAddr
  | bytes
deriving DecidableEq, Repr

/-- Position of a category in the source enum declaration order. -/
def ColumnTypeCategory.toOrd : ColumnTypeCategory → Nat
  | ColumnTypeCategory.bool => 0
  | ColumnTypeCategory.str => 1
  | ColumnTypeCategory.numerical => 2
  | ColumnTypeCategory.ipAddr => 3
  | ColumnTypeCategory.bytes => 4

theorem ColumnTypeCategory.toOrd_inj (a b : ColumnTypeCategory)
    (h : a.toOrd = b.toOrd) : a = b := by
  cases a <;> cases b <;> first | rfl | exact absurd h (by decide)

/-- Strict sort key comparison used by `serialize`: column name bytes
lexicographically, then category enum order. -/
def keyLtB (a b : List Nat × ColumnTypeCategory) : Bool :=
  bytesLtB a.1 b.1 || (a.1 = b.1 && a.2.toOrd < b.2.toOrd)

/-- The reflexive closure fed to the sorting routine. -/
def keyLe (a b : List Nat × ColumnTypeCategory) : Prop := keyLtB b a = false

instance : DecidableRel keyLe := fun a b =>
  inferInstanceAs (Decidable (keyLtB b a = false))

theorem keyLtB_irrefl (a : List Nat × ColumnTypeCategory) : keyLtB a a = false := by
  simp [keyLtB, bytesLtB_irrefl]

theorem keyLtB_asymm (a b : List Nat × ColumnTypeCategory) (h : keyLtB a b = true) :
    keyLtB b a = false := by
  simp only [keyLtB, Bool.or_eq_true, Bool.and_eq_true, decide_eq_true_eq] at h ⊢
  rcases h with h | ⟨he, hc⟩
  · have h1 := bytesLtB_asymm a.1 b.1 h
    have h2 : b.1 ≠ a.1 := by
      intro hba
      rw [hba] at h
      rw [bytesLtB_irrefl] at h
      exact absurd h (by simp)
    simp [h1, h2]
  · rw [he]
    simp [bytesLtB_irrefl]
    omega
  
theorem keyLtB_trichotomy (a b : List Nat × ColumnTypeCategory) :
    keyLtB a b = true ∨ a = b ∨ keyLtB b a = true := by
  rcases bytesLtB_trichotomy a.1 b.1 with h | h | h
  · left
    simp [keyLtB, h]
  · rcases Nat.lt_trichotomy a.2.toOrd b.2.toOrd with hc | hc | hc
    · left
      simp [keyLtB, h, hc]
    · right; left
      have := ColumnTypeCategory.toOrd_inj a.2 b.2 hc
      exact Prod.ext h this
    · right; right
      simp [keyLtB, h.symm, hc]
  · right; right
    simp [keyLtB, h]

theorem keyLtB_trans (a b c : List Nat × ColumnTypeCategory) (hab : keyLtB a b = true)
    (hbc : keyLtB b c = true) : keyLtB a c = true := by
  simp only [keyLtB, Bool.or_eq_true, Bool.and_eq_true, decide_eq_true_eq] at hab hbc ⊢
  rcases hab with hab | ⟨habe, habc⟩
  · rcases hbc with hbc | ⟨hbce, hbcc⟩
    · left
      exact bytesLtB_trans _ _ _ hab hbc
    · left
      rw [← hbce]
      exact hab
  · rcases hbc with hbc | ⟨hbce, hbcc⟩
    · left
      rw [habe]
      exact hbc
    · right
      exact ⟨habe.trans hbce, by omega⟩

instance : IsTotal (List Nat × ColumnTypeCategory) keyLe := by
  constructor
  intro a b
  rcases keyLtB_trichotomy a b with h | h | h
  · left
    exact keyLtB_asymm a b h
  · left
    subst h
    show keyLtB a a = false
    exact keyLtB_irrefl a
  · right
    exact keyLtB_asymm b a h

instance : IsTrans (List Nat × ColumnTypeCategory) keyLe := by
  constructor
  intro a b c hab hbc
  rcases keyLtB_trichotomy c a with h | h | h
  · exfalso
    rcases keyLtB_trichotomy b c with h2 | h2 | h2
    · have := keyLtB_trans _ _ _ h2 h
      rw [hab] at this
      exact absurd this (by simp)
    · rw [← h2] at h
      rw [hab] at h
      exact absurd h (by simp)
    · rw [hbc] at h2
      exact absurd h2 (by simp)
  · subst h
    show keyLtB c c = false
    exact keyLtB_irrefl c
  · exact keyLtB_asymm a c h

instance : IsAntisymm (List Nat × ColumnTypeCategory) (fun a b => keyLtB a b = true) := by
  constructor
  intro a b hab hba
  have := keyLtB_asymm a b hab
  rw [hba] at this
  exact absurd this (by simp)

/-! ## Dictionary builder and term id mapping (spec section 4.D) -/

/-- Little-endian 4-byte encoding of a 32-bit quantity, as written by
`u32::to_le_bytes`. -/
def le32 (n : Nat) : List Nat :=
  [n % 256, n / 256 % 256, n / 65536 % 256, n / 16777216 % 256]

/-- Little-endian decoding of a 4-byte buffer. -/
def fromLe32 (bs : List Nat) : Nat :=
  bs.getD 0 0 + 256 * bs.getD 1 0 + 65536 * bs.getD 2 0 + 16777216 * bs.getD 3 0

/-- Index of a byte string inside a term list, offset by the accumulator. -/
def indexOfBytes (t : List Nat) : List (List Nat) → Nat → Nat
  | [], k => k
  | x :: rest, k => if x = t then k else indexOfBytes t rest (k + 1)

/-- Lookup of a byte string inside a term list, returning its index. -/
def findTermIndex (t : List Nat) : List (List Nat) → Nat → Option Nat
  | [], _ => none
  | x :: rest, k => if x = t then some k else findTermIndex t rest (k + 1)

/-- Modelled from the spec: the external term-block format is out of scope;
a deterministic length-prefixed layout stands in for it (its contract is
only to be deterministic and recoverable). -/
def termBlockBytes : List (List Nat) → List Nat
  | [] => []
  | t :: rest => le32 t.length ++ t ++ termBlockBytes rest

/-- The unordered-to-ordered term id permutation produced when a
dictionary is serialized. -/
structure TermIdMapping where
  perm : List Nat

/-- `TermIdMapping::to_ord`: ordered id of an unordered id. -/
def TermIdMapping.to_ord (m : TermIdMapping) (unordered : Nat) : Nat :=
  m.perm.getD unordered 0

/-- Modelled from the spec: the dictionary builder interns byte strings in
insertion (unordered id) order. The implementation is not among the sources
at hand. -/
structure DictionaryBuilder where
  terms : List (List Nat)
deriving DecidableEq, Repr

/-- Modelled from the spec: interning returns the existing unordered id of
a known byte string, or appends the byte string with the next id. -/
def DictionaryBuilder.intern (d : DictionaryBuilder) (bytes : List Nat) :
    DictionaryBuilder × Nat :=
  match findTermIndex bytes d.terms 0 with
  | some id => (d, id)
  | none => (⟨d.terms ++ [bytes]⟩, d.terms.length)

/-- Modelled from the spec: `DictionaryBuilder::serialize` sorts the terms
lexicographically, writes them with the term-block format, and returns the
unordered-to-ordered `TermIdMapping`. -/
def DictionaryBuilder.serializeDict (d : DictionaryBuilder) : List Nat × TermIdMapping :=
  let sortedTerms := List.insertionSort (fun a b => bytesLeB a b = true) d.terms
  (termBlockBytes sortedTerms, ⟨d.terms.map (fun t => indexOfBytes t sortedTerms 0)⟩)

/-! ## Value-vector serialization pipeline (writer/mod.rs) -/

/-- The three serializable column index shapes handed to the external
value serializer. -/
inductive SerializableColumnIndex where
  | full
  | optional (rowIds : List Nat)
  | multivalued (startOffsets : List Nat)

/-- Cardinality byte code attached to each index shape. -/
def SerializableColumnIndex.cardCode : SerializableColumnIndex → Nat
  | SerializableColumnIndex.full => 0
  | SerializableColumnIndex.optional _ => 1
  | SerializableColumnIndex.multivalued _ => 2

/-- Modelled from the spec: the external
`serialize_column_mappable_to_u64` writes the cardinality byte, then the
index payload, then the value-vector payload; the index and value codecs
are external collaborators and enter as parameters. -/
def serialize_column_mappable_to_u64 (indexCodec : SerializableColumnIndex → List Nat)
    (valueCodec : List Nat → List Nat) (index : SerializableColumnIndex)
    (values : List Nat) : List Nat :=
  index.cardCode :: (indexCodec index ++ valueCodec values)

/-- State of the optional-index builder: the row ids that received values. -/
structure OptionalIndexBuilder where
  rows : List Nat

/-- State of the multivalued-index builder of spec section 4.F. -/
structure MultivaluedIndexBuilder where
  startOffsets : List Nat
  current_value_count : Nat

/-- Modelled from the spec, section 4.F: `record_row` pads the starts
vector up to position `doc` with the current value count (forward fill). -/
def MultivaluedIndexBuilder.record_row (b : MultivaluedIndexBuilder) (doc : Nat) :
    MultivaluedIndexBuilder :=
  { b with
    startOffsets :=
      b.startOffsets ++ List.replicate (doc + 1 - b.startOffsets.length) b.current_value_count }

/-- Modelled from the spec, section 4.F: `record_value` bumps the running
value count. -/
def MultivaluedIndexBuilder.record_value (b : MultivaluedIndexBuilder) :
    MultivaluedIndexBuilder :=
  { b with current_value_count := b.current_value_count + 1 }

/-- Modelled from the spec, section 4.F: `finish` pads the starts vector to
length `num_docs + 1` with the total value count. -/
def MultivaluedIndexBuilder.finish (b : MultivaluedIndexBuilder) (num_docs : Nat) :
    SerializableColumnIndex :=
  SerializableColumnIndex.multivalued
    (b.startOffsets ++ List.replicate (num_docs + 1 - b.startOffsets.length) b.current_value_count)

/-- Generic index-builder interface threaded through the operation
consumer, as the `IndexBuilder` trait of `value_index.rs`. -/
structure IndexBuilderOps (σ : Type) where
  record_row : σ → Nat → σ
  record_value : σ → σ

/-- Embeds `consume_operation_iterator` of `writer/mod.rs`: a single pass
over the operation log that feeds `NewDoc` to the index builder and pushes
values onto the reused value buffer. -/
def consume_operation_iterator {σ : Type} (b : IndexBuilderOps σ) :
    List (ColumnOperation Nat) → σ → List Nat → σ × List Nat
  | [], st, values => (st, values)
  | ColumnOperation.newDoc doc :: rest, st, values =>
      consume_operation_iterator b rest (b.record_row st doc) values
  | ColumnOperation.value v :: rest, st, values =>
      consume_operation_iterator b rest (b.record_value st) (values ++ [v])

/-- The required-index builder records nothing. -/
def requiredIndexBuilder : IndexBuilderOps Unit :=
  ⟨fun _ _ => (), fun _ => ()⟩

/-- The optional-index builder collects the row ids seen in `NewDoc`. -/
def optionalIndexBuilder : IndexBuilderOps OptionalIndexBuilder :=
  ⟨fun st doc => ⟨st.rows ++ [doc]⟩, fun st => st⟩

/-- The multivalued-index builder from spec section 4.F. -/
def multivaluedIndexBuilder : IndexBuilderOps MultivaluedIndexBuilder :=
  ⟨MultivaluedIndexBuilder.record_row, MultivaluedIndexBuilder.record_value⟩

/-- Models `Vec::clear` on the reused scratch buffer. -/
def clearBuffer (buffer : List Nat) : List Nat :=
  match buffer with
  | _ => []

/-- Embeds `send_to_serialize_column_mappable_to_u64` of `writer/mod.rs`:
clear the spare value buffer, build the index matching the cardinality
while collecting values, and hand both to the external serializer. -/
def send_to_serialize_column_mappable_to_u64
    (indexCodec : SerializableColumnIndex → List Nat) (valueCodec : List Nat → List Nat)
    (op_iterator : List (ColumnOperation Nat)) (cardinality : Cardinality)
    (num_docs : Nat) (spareValues : List Nat) : List Nat :=
  let values0 := clearBuffer spareValues
  match cardinality with
  | Cardinality.full =>
    let res := consume_operation_iterator requiredIndexBuilder op_iterator () values0
    serialize_column_mappable_to_u64 indexCodec valueCodec SerializableColumnIndex.full res.2
  | Cardinality.optional =>
    let res := consume_operation_iterator optionalIndexBuilder op_iterator ⟨[]⟩ values0
    serialize_column_mappable_to_u64 indexCodec valueCodec
      (SerializableColumnIndex.optional res.1.rows) res.2
  | Cardinality.multivalued =>
    let res := consume_operation_iterator multivaluedIndexBuilder op_iterator ⟨[], 0⟩ values0
    serialize_column_mappable_to_u64 indexCodec valueCodec
      (res.1.finish num_docs) res.2

/-- Embeds `serialize_bytes_or_str_column` of `writer/mod.rs`: serialize
the dictionary first (counting its bytes), remap the operation stream
through the term id mapping, feed the u64-mappable serializer, then append
the dictionary byte length as four little-endian bytes. -/
def serialize_bytes_or_str_column (indexCodec : SerializableColumnIndex → List Nat)
    (valueCodec : List Nat → List Nat) (cardinality : Cardinality) (num_docs : Nat)
    (dictionary_builder : DictionaryBuilder) (operation_it : List (ColumnOperation Nat))
    (spareValues : List Nat) : List Nat :=
  let dict := dictionary_builder.serializeDict
  let dictionary_num_bytes := dict.1.length
  let operation_iterator := operation_it.map (fun symbol =>
    match symbol with
    | ColumnOperation.value unordered_id => ColumnOperation.value (dict.2.to_ord unordered_id)
    | ColumnOperation.newDoc doc => ColumnOperation.newDoc doc)
  dict.1 ++
    send_to_serialize_column_mappable_to_u64 indexCodec valueCodec operation_iterator
      cardinality num_docs spareValues ++
    le32 dictionary_num_bytes

theorem fromLe32_le32 (n : Nat) : fromLe32 (le32 n) = n % 4294967296 := by
  show n % 256 + 256 * (n / 256 % 256) + 65536 * (n / 65536 % 256) +
      16777216 * (n / 16777216 % 256) = n % 4294967296
  omega

/-- C5: for a Str or Bytes column, `serialize` writes the dictionary into
the frame first; the value body is produced from the operation stream with
every `Value(unordered_id)` remapped through the `TermIdMapping` to its
ordered id and `NewDoc` operations passed through unchanged, before the
u64-mappable serializer consumes it; and after the value body the
dictionary byte length is appended as exactly four little-endian bytes. -/
theorem claim_C5_str_bytes_column_serialization
    (indexCodec : SerializableColumnIndex → List Nat) (valueCodec : List Nat → List Nat)
    (cardinality : Cardinality) (num_docs : Nat) (dict : DictionaryBuilder)
    (ops : List (ColumnOperation Nat)) (spare : List Nat) :
    (serialize_bytes_or_str_column indexCodec valueCodec cardinality num_docs dict ops spare =
      dict.serializeDict.1 ++
      send_to_serialize_column_mappable_to_u64 indexCodec valueCodec
        (ops.map (fun symbol =>
          match symbol with
          | ColumnOperation.value unordered_id =>
              ColumnOperation.value (dict.serializeDict.2.to_ord unordered_id)
          | ColumnOperation.newDoc doc => ColumnOperation.newDoc doc))
        cardinality num_docs spare ++
      le32 dict.serializeDict.1.length) ∧
    (le32 dict.serializeDict.1.length).length = 4 ∧
    fromLe32 (le32 dict.serializeDict.1.length) =
      dict.serializeDict.1.length % 4294967296 :=
  ⟨rfl, rfl, fromLe32_le32 _⟩

theorem send_to_serialize_head (indexCodec : SerializableColumnIndex → List Nat)
    (valueCodec : List Nat → List Nat) (ops : List (ColumnOperation Nat))
    (cardinality : Cardinality) (num_docs : Nat) (spare : List Nat) :
    ∃ rest, send_to_serialize_column_mappable_to_u64 indexCodec valueCodec ops
      cardinality num_docs spare = cardinality.toCode :: rest := by
  cases cardinality
  · exact ⟨_, rfl⟩
  · exact ⟨_, rfl⟩
  · exact ⟨_, rfl⟩

/-- C6 (amended): the value body always begins with the cardinality byte
code, so a frame of a non-Str/Bytes column begins with the cardinality
byte; a Str/Bytes frame however is laid out as
`[ dictionary ][ body ][ dictionary_size:u32_le ]`, so its cardinality
byte sits at offset `|dictionary|`, not at offset 0. -/
theorem claim_C6_amended_frame_layout
    (indexCodec : SerializableColumnIndex → List Nat) (valueCodec : List Nat → List Nat)
    (ops : List (ColumnOperation Nat)) (cardinality : Cardinality) (num_docs : Nat)
    (spare : List Nat) (dict : DictionaryBuilder) :
    ((send_to_serialize_column_mappable_to_u64 indexCodec valueCodec ops cardinality
        num_docs spare).getD 0 0 = cardinality.toCode) ∧
    ((serialize_bytes_or_str_column indexCodec valueCodec cardinality num_docs dict ops
        spare).getD dict.serializeDict.1.length 0 = cardinality.toCode) := by
  constructor
  · obtain ⟨rest, hr⟩ := send_to_serialize_head indexCodec valueCodec ops cardinality
      num_docs spare
    rw [hr]
    rfl
  · obtain ⟨rest, hr⟩ := send_to_serialize_head indexCodec valueCodec
      (ops.map (fun symbol =>
        match symbol with
        | ColumnOperation.value unordered_id =>
            ColumnOperation.value (dict.serializeDict.2.to_ord unordered_id)
        | ColumnOperation.newDoc doc => ColumnOperation.newDoc doc))
      cardinality num_docs spare
    show (dict.serializeDict.1 ++
        send_to_serialize_column_mappable_to_u64 indexCodec valueCodec _ cardinality
          num_docs spare ++
        le32 dict.serializeDict.1.length).getD dict.serializeDict.1.length 0 =
      cardinality.toCode
    rw [hr, List.append_assoc]
    show (dict.serializeDict.1 ++
        (cardinality.toCode :: (rest ++ le32 dict.serializeDict.1.length))).getD
        dict.serializeDict.1.length 0 = cardinality.toCode
    exact getD_append_cons _ _ _ 0

/-- C6 counterexample: a concrete Str column with one term and cardinality
Full whose frame begins with a dictionary byte (2), not the cardinality
code (0) — the first byte of a Str/Bytes frame is not the cardinality
byte. -/
theorem claim_C6_first_byte_counterexample :
    ¬ ((serialize_bytes_or_str_column (fun _ => []) (fun vs => vs) Cardinality.full 3
        ⟨[[97, 98]]⟩
        [ColumnOperation.newDoc 0, ColumnOperation.value 0, ColumnOperation.newDoc 1,
         ColumnOperation.value 0, ColumnOperation.newDoc 2, ColumnOperation.value 0]
        []).getD 0 0 = Cardinality.full.toCode) := by
  decide

/-! ## ColumnarWriter state and the record entry points (writer/mod.rs) -/

/-- Numerical values as the tagged union of the source; the f64 payload is
carried as its raw bit pattern (no floating-point arithmetic occurs in the
record path). -/
inductive NumericalValue where
  | i64 (v : Int)
  | u64 (v : Nat)
  | f64 (bits : Nat)
deriving DecidableEq, Repr

/-- A Str/Bytes column writer owns a dictionary id and a plain column
writer recording unordered term ids. -/
structure StrOrBytesColumnWriter where
  dictionary_id : Nat
  column_writer : ColumnWriter Nat

/-- Embeds `ArenaHashMap::mutate_or_create`: update the entry with the
given key in place, or append a fresh entry produced from `none`. -/
def mutateOrCreate {β : Type} : List (List Nat × β) → List Nat → (Option β → β) →
    List (List Nat × β)
  | [], key, f => [(key, f none)]
  | (k, v) :: rest, key, f =>
      if k = key then (k, f (some v)) :: rest else (k, v) :: mutateOrCreate rest key f

/-- Association-list lookup on the column tables. -/
def lookupColumn {β : Type} : List (List Nat × β) → List Nat → Option β
  | [], _ => none
  | (k, v) :: rest, key => if k = key then some v else lookupColumn rest key

/-- In-place update of a list element at an index. -/
def listSet {α : Type} : List α → Nat → α → List α
  | [], _, _ => []
  | _ :: rest, 0, a => a :: rest
  | x :: rest, n + 1, a => x :: listSet rest n a

/-- The columnar writer: one name-keyed table per category, the shared
dictionary vector, as in `writer/mod.rs`. -/
structure ColumnarWriter where
  numerical_field_hash_map : List (List Nat × ColumnWriter NumericalValue)
  bool_field_hash_map : List (List Nat × ColumnWriter Bool)
  ip_addr_field_hash_map : List (List Nat × ColumnWriter Nat)
  bytes_field_hash_map : List (List Nat × StrOrBytesColumnWriter)
  str_field_hash_map : List (List Nat × StrOrBytesColumnWriter)
  dictionaries : List DictionaryBuilder

/-- A fresh columnar writer (`ColumnarWriter::default`). -/
def emptyColumnarWriter : ColumnarWriter :=
  ⟨[], [], [], [], [], []⟩

/-- Modelled from the spec: `StrOrBytesColumnWriter::record_bytes` interns
the byte string into its dictionary and records the unordered id. -/
def StrOrBytesColumnWriter.record_bytes (c : StrOrBytesColumnWriter) (doc : Nat)
    (bytes : List Nat) (dicts : List DictionaryBuilder) :
    StrOrBytesColumnWriter × List DictionaryBuilder :=
  let d := dicts.getD c.dictionary_id ⟨[]⟩
  let r := d.intern bytes
  (⟨c.dictionary_id, c.column_writer.record doc r.2⟩, listSet dicts c.dictionary_id r.1)

/-- The `mutate_or_create` closure of `record_str`/`record_bytes`: a fresh
column allocates the next dictionary, then the value is interned and
recorded. -/
def mutateOrCreateStrOrBytes :
    List (List Nat × StrOrBytesColumnWriter) → List DictionaryBuilder → List Nat → Nat →
      List Nat → List (List Nat × StrOrBytesColumnWriter) × List DictionaryBuilder
  | [], dicts, key, doc, value =>
      let dictionary_id := dicts.length
      let dicts1 := dicts ++ [⟨[]⟩]
      let r := StrOrBytesColumnWriter.record_bytes ⟨dictionary_id, ColumnWriter.empty⟩
        doc value dicts1
      ([(key, r.1)], r.2)
  | (k, v) :: rest, dicts, key, doc, value =>
      if k = key then
        let r := v.record_bytes doc value dicts
        ((k, r.1) :: rest, r.2)
      else
        let r := mutateOrCreateStrOrBytes rest dicts key doc value
        ((k, v) :: r.1, r.2)

/-- Embeds `ColumnarWriter::record_numerical`: the zero-byte assertion is
modelled as returning `none` (a panic); otherwise the numerical table entry
records the value. -/
def ColumnarWriter.record_numerical (w : ColumnarWriter) (doc : Nat)
    (column_name : List Nat) (numerical_value : NumericalValue) : Option ColumnarWriter :=
  if column_name.contains 0 then none
  else some { w with numerical_field_hash_map :=
      (mutateOrCreate w.numerical_field_hash_map column_name
        (fun column_opt => (column_opt.getD ColumnWriter.empty).record doc numerical_value)) }

/-- Embeds `ColumnarWriter::record_bool`. -/
def ColumnarWriter.record_bool (w : ColumnarWriter) (doc : Nat)
    (column_name : List Nat) (val : Bool) : Option ColumnarWriter :=
  if column_name.contains 0 then none
  else some { w with bool_field_hash_map :=
      (mutateOrCreate w.bool_field_hash_map column_name
        (fun column_opt => (column_opt.getD ColumnWriter.empty).record doc val)) }

/-- Embeds `ColumnarWriter::record_ip_addr`; the IPv6 address is carried
as its u128 value. -/
def ColumnarWriter.record_ip_addr (w : ColumnarWriter) (doc : Nat)
    (column_name : List Nat) (ip_addr : Nat) : Option ColumnarWriter :=
  if column_name.contains 0 then none
  else some { w with ip_addr_field_hash_map :=
      (mutateOrCreate w.ip_addr_field_hash_map column_name
        (fun column_opt => (column_opt.getD ColumnWriter.empty).record doc ip_addr)) }

/-- Embeds `ColumnarWriter::record_str`. -/
def ColumnarWriter.record_str (w : ColumnarWriter) (doc : Nat)
    (column_name : List Nat) (value : List Nat) : Option ColumnarWriter :=
  if column_name.contains 0 then none
  else
    let r := mutateOrCreateStrOrBytes w.str_field_hash_map w.dictionaries column_name doc value
    some { w with str_field_hash_map := r.1, dictionaries := r.2 }

/-- Embeds `ColumnarWriter::record_bytes`. -/
def ColumnarWriter.record_bytes (w : ColumnarWriter) (doc : Nat)
    (column_name : List Nat) (value : List Nat) : Option ColumnarWriter :=
  if column_name.contains 0 then none
  else
    let r := mutateOrCreateStrOrBytes w.bytes_field_hash_map w.dictionaries column_name doc value
    some { w with bytes_field_hash_map := r.1, dictionaries := r.2 }

/-! ## C9: the zero-byte assertion on record calls -/

theorem ColumnWriter.record_total_values {α : Type} (w : ColumnWriter α) (doc : Nat)
    (v : α) : (w.record doc v).total_values = w.total_values + 1 := by
  rw [ColumnWriter.record]
  by_cases h : w.last_doc_opt = some doc
  · simp [h]
  · simp [h]

theorem lookup_mutateOrCreate {β : Type} (m : List (List Nat × β)) (key : List Nat)
    (f : Option β → β) :
    lookupColumn (mutateOrCreate m key f) key = some (f (lookupColumn m key)) := by
  induction m with
  | nil => simp [mutateOrCreate, lookupColumn]
  | cons e rest ih =>
    rcases e with ⟨k, v⟩
    by_cases hk : k = key
    · simp [mutateOrCreate, lookupColumn, hk]
    · simp [mutateOrCreate, lookupColumn, hk, ih]

theorem lookup_mutateOrCreateStrOrBytes (m : List (List Nat × StrOrBytesColumnWriter))
    (dicts : List DictionaryBuilder) (key : List Nat) (doc : Nat) (value : List Nat) :
    (lookupColumn (mutateOrCreateStrOrBytes m dicts key doc value).1 key).map
      (fun c => c.column_writer.total_values) =
    some (((lookupColumn m key).map (fun c => c.column_writer.total_values)).getD 0 + 1) := by
  induction m generalizing dicts with
  | nil =>
    simp only [mutateOrCreateStrOrBytes, lookupColumn, if_pos rfl, Option.map_some,
      StrOrBytesColumnWriter.record_bytes]
    simp [ColumnWriter.record_total_values, ColumnWriter.empty]
  | cons e rest ih =>
    rcases e with ⟨k, v⟩
    by_cases hk : k = key
    · simp only [mutateOrCreateStrOrBytes, hk, if_pos rfl, lookupColumn,
        StrOrBytesColumnWriter.record_bytes]
      simp [ColumnWriter.record_total_values]
    · simp only [mutateOrCreateStrOrBytes, lookupColumn, if_neg hk]
      exact ih dicts

/-- C9: each of the five record entry points fails (panics on the key
assertion) exactly when the column name contains the zero byte; with a
zero-free name the call succeeds and the named column records one more
value. -/
theorem claim_C9_record_zero_byte_assertion (w : ColumnarWriter) (doc : Nat)
    (name : List Nat) (numv : NumericalValue) (bv : Bool) (ipv : Nat)
    (sv bytesv : List Nat) :
    ((w.record_numerical doc name numv = none ↔ name.contains 0 = true) ∧
     (w.record_bool doc name bv = none ↔ name.contains 0 = true) ∧
     (w.record_ip_addr doc name ipv = none ↔ name.contains 0 = true) ∧
     (w.record_str doc name sv = none ↔ name.contains 0 = true) ∧
     (w.record_bytes doc name bytesv = none ↔ name.contains 0 = true)) ∧
    (name.contains 0 = false →
      ((∃ w', w.record_numerical doc name numv = some w' ∧
        (lookupColumn w'.numerical_field_hash_map name).map (fun c => c.total_values) =
          some (((lookupColumn w.numerical_field_hash_map name).map
            (fun c => c.total_values)).getD 0 + 1)) ∧
      (∃ w', w.record_bool doc name bv = some w' ∧
        (lookupColumn w'.bool_field_hash_map name).map (fun c => c.total_values) =
          some (((lookupColumn w.bool_field_hash_map name).map
            (fun c => c.total_values)).getD 0 + 1)) ∧
      (∃ w', w.record_ip_addr doc name ipv = some w' ∧
        (lookupColumn w'.ip_addr_field_hash_map name).map (fun c => c.total_values) =
          some (((lookupColumn w.ip_addr_field_hash_map name).map
            (fun c => c.total_values)).getD 0 + 1)) ∧
      (∃ w', w.record_str doc name sv = some w' ∧
        (lookupColumn w'.str_field_hash_map name).map
            (fun c => c.column_writer.total_values) =
          some (((lookupColumn w.str_field_hash_map name).map
            (fun c => c.column_writer.total_values)).getD 0 + 1)) ∧
      (∃ w', w.record_bytes doc name bytesv = some w' ∧
        (lookupColumn w'.bytes_field_hash_map name).map
            (fun c => c.column_writer.total_values) =
          some (((lookupColumn w.bytes_field_hash_map name).map
            (fun c => c.column_writer.total_values)).getD 0 + 1)))) := by
  constructor
  · refine ⟨?_, ?_, ?_, ?_, ?_⟩ <;>
      (first
        | (rw [ColumnarWriter.record_numerical]
           by_cases h : name.contains 0 <;> simp [h])
        | (rw [ColumnarWriter.record_bool]
           by_cases h : name.contains 0 <;> simp [h])
        | (rw [ColumnarWriter.record_ip_addr]
           by_cases h : name.contains 0 <;> simp [h])
        | (rw [ColumnarWriter.record_str]
           by_cases h : name.contains 0 <;> simp [h])
        | (rw [ColumnarWriter.record_bytes]
           by_cases h : name.contains 0 <;> simp [h]))
  · intro h
    refine ⟨?_, ?_, ?_, ?_, ?_⟩
    · refine ⟨_, by rw [ColumnarWriter.record_numerical, if_neg (by rw [h]; simp)], ?_⟩
      simp only [lookup_mutateOrCreate]
      cases hx : lookupColumn w.numerical_field_hash_map name <;>
        simp [hx, ColumnWriter.record_total_values, ColumnWriter.empty]
    · refine ⟨_, by rw [ColumnarWriter.record_bool, if_neg (by rw [h]; simp)], ?_⟩
      simp only [lookup_mutateOrCreate]
      cases hx : lookupColumn w.bool_field_hash_map name <;>
        simp [hx, ColumnWriter.record_total_values, ColumnWriter.empty]
    · refine ⟨_, by rw [ColumnarWriter.record_ip_addr, if_neg (by rw [h]; simp)], ?_⟩
      simp only [lookup_mutateOrCreate]
      cases hx : lookupColumn w.ip_addr_field_hash_map name <;>
        simp [hx, ColumnWriter.record_total_values, ColumnWriter.empty]
    · refine ⟨_, by rw [ColumnarWriter.record_str, if_neg (by rw [h]; simp)], ?_⟩
      exact lookup_mutateOrCreateStrOrBytes w.str_field_hash_map w.dictionaries name doc sv
    · refine ⟨_, by rw [ColumnarWriter.record_bytes, if_neg (by rw [h]; simp)], ?_⟩
      exact lookup_mutateOrCreateStrOrBytes w.bytes_field_hash_map w.dictionaries name doc
        bytesv

/-- Witness for C9 on an empty writer, the zero-free name `[97]`, and one
concrete value per entry point; plus the panic at the name `[0]`. -/
theorem claim_C9_record_zero_byte_assertion_witness :
    (emptyColumnarWriter.record_numerical 0 [0] (NumericalValue.u64 5) = none) ∧
    (([97] : List Nat).contains 0 = false) ∧
    (∃ w', emptyColumnarWriter.record_numerical 0 [97] (NumericalValue.u64 5) = some w' ∧
      (lookupColumn w'.numerical_field_hash_map [97]).map (fun c => c.total_values) =
        some (((lookupColumn emptyColumnarWriter.numerical_field_hash_map [97]).map
          (fun c => c.total_values)).getD 0 + 1)) := by
  refine ⟨?_, by decide, ?_⟩
  · exact (claim_C9_record_zero_byte_assertion emptyColumnarWriter 0 [0]
      (NumericalValue.u64 5) true 0 [] []).1.1.mpr (by decide)
  · exact ((claim_C9_record_zero_byte_assertion emptyColumnarWriter 0 [97]
      (NumericalValue.u64 5) true 0 [] []).2 (by decide)).1

/-! ## C7: the directory emission order of serialize -/

/-- One recorded call against the columnar writer surface. -/
inductive RecordCall where
  | numericalCall (doc : Nat) (name : List Nat) (value : NumericalValue)
  | strCall (doc : Nat) (name : List Nat) (value : List Nat)
  | bytesCall (doc : Nat) (name : List Nat) (value : List Nat)
  | boolCall (doc : Nat) (name : List Nat) (value : Bool)
  | ipAddrCall (doc : Nat) (name : List Nat) (value : Nat)

/-- Apply one record call; a panicking call (zero byte in the name) leaves
the writer unchanged, since execution would abort there. -/
def ColumnarWriter.applyCall (w : ColumnarWriter) : RecordCall → ColumnarWriter
  | RecordCall.numericalCall doc name v => (w.record_numerical doc name v).getD w
  | RecordCall.strCall doc name v => (w.record_str doc name v).getD w
  | RecordCall.bytesCall doc name v => (w.record_bytes doc name v).getD w
  | RecordCall.boolCall doc name v => (w.record_bool doc name v).getD w
  | RecordCall.ipAddrCall doc name v => (w.record_ip_addr doc name v).getD w

/-- The writer reached from `default` by a sequence of record calls. -/
def ColumnarWriter.applyCalls (calls : List RecordCall) : ColumnarWriter :=
  calls.foldl ColumnarWriter.applyCall emptyColumnarWriter

/-- Embeds the `field_columns` collection of `serialize` (writer/mod.rs
lines 200-225): the five tables contribute `(name, category)` entries in
the concatenation order of the source. -/
def ColumnarWriter.fieldColumns (w : ColumnarWriter) : List (List Nat × ColumnTypeCategory) :=
  (w.numerical_field_hash_map.map (fun e => (e.1, ColumnTypeCategory.numerical))) ++
  (w.bytes_field_hash_map.map (fun e => (e.1, ColumnTypeCategory.bytes))) ++
  (w.str_field_hash_map.map (fun e => (e.1, ColumnTypeCategory.str))) ++
  (w.bool_field_hash_map.map (fun e => (e.1, ColumnTypeCategory.bool))) ++
  (w.ip_addr_field_hash_map.map (fun e => (e.1, ColumnTypeCategory.ipAddr)))

/-- Embeds `field_columns.sort_unstable_by_key(|..| (name, category))`. -/
def sortFieldColumns (cols : List (List Nat × ColumnTypeCategory)) :
    List (List Nat × ColumnTypeCategory) :=
  List.insertionSort keyLe cols

/-- The sequence of `(name, category)` directory entries (and frame
emission order) of `serialize`. -/
def ColumnarWriter.serializeDirectory (w : ColumnarWriter) :
    List (List Nat × ColumnTypeCategory) :=
  sortFieldColumns w.fieldColumns

theorem mem_keys_mutateOrCreate {β : Type} (m : List (List Nat × β)) (key : List Nat)
    (f : Option β → β) (a : List Nat) :
    (a ∈ (mutateOrCreate m key f).map Prod.fst ↔ a ∈ m.map Prod.fst ∨ a = key) := by
  induction m with
  | nil => simp [mutateOrCreate]
  | cons e rest ih =>
    rcases e with ⟨k, v⟩
    by_cases hk : k = key
    · subst hk
      simp [mutateOrCreate]
      intro h
      exact Or.inl h
    · simp [mutateOrCreate, hk, ih]
      constructor
      · rintro (h | h | h)
        · left; left; exact h
        · left; right; exact h
        · right; exact h
      · rintro ((h | h) | h)
        · left; exact h
        · right; left; exact h
        · right; right; exact h

theorem nodup_keys_mutateOrCreate {β : Type} (m : List (List Nat × β)) (key : List Nat)
    (f : Option β → β) (h : (m.map Prod.fst).Nodup) :
    ((mutateOrCreate m key f).map Prod.fst).Nodup := by
  induction m with
  | nil => simp [mutateOrCreate]
  | cons e rest ih =>
    rcases e with ⟨k, v⟩
    simp only [List.map_cons, List.nodup_cons] at h
    by_cases hk : k = key
    · simp only [mutateOrCreate, if_pos hk, List.map_cons, List.nodup_cons]
      exact h
    · simp only [mutateOrCreate, if_neg hk, List.map_cons, List.nodup_cons]
      constructor
      · intro hmem
        rcases (mem_keys_mutateOrCreate rest key f k).mp hmem with hm | he
        · exact h.1 hm
        · exact hk he
      · exact ih h.2

theorem mem_keys_mutateOrCreateStrOrBytes (m : List (List Nat × StrOrBytesColumnWriter))
    (dicts : List DictionaryBuilder) (key : List Nat) (doc : Nat) (value : List Nat)
    (a : List Nat) :
    (a ∈ (mutateOrCreateStrOrBytes m dicts key doc value).1.map Prod.fst ↔
      a ∈ m.map Prod.fst ∨ a = key) := by
  induction m generalizing dicts with
  | nil => simp [mutateOrCreateStrOrBytes]
  | cons e rest ih =>
    rcases e with ⟨k, v⟩
    by_cases hk : k = key
    · subst hk
      simp [mutateOrCreateStrOrBytes]
      intro h
      exact Or.inl h
    · simp [mutateOrCreateStrOrBytes, hk, ih]
      constructor
      · rintro (h | h | h)
        · left; left; exact h
        · left; right; exact h
        · right; exact h
      · rintro ((h | h) | h)
        · left; exact h
        · right; left; exact h
        · right; right; exact h

theorem nodup_keys_mutateOrCreateStrOrBytes (m : List (List Nat × StrOrBytesColumnWriter))
    (dicts : List DictionaryBuilder) (key : List Nat) (doc : Nat) (value : List Nat)
    (h : (m.map Prod.fst).Nodup) :
    ((mutateOrCreateStrOrBytes m dicts key doc value).1.map Prod.fst).Nodup := by
  induction m generalizing dicts with
  | nil => simp [mutateOrCreateStrOrBytes]
  | cons e rest ih =>
    rcases e with ⟨k, v⟩
    simp only [List.map_cons, List.nodup_cons] at h
    by_cases hk : k = key
    · simp only [mutateOrCreateStrOrBytes, if_pos hk, List.map_cons, List.nodup_cons]
      exact h
    · simp only [mutateOrCreateStrOrBytes, if_neg hk, List.map_cons, List.nodup_cons]
      constructor
      · intro hmem
        rcases (mem_keys_mutateOrCreateStrOrBytes rest dicts key doc value k).mp hmem with
          hm | he
        · exact h.1 hm
        · exact hk he
      · exact ih dicts h.2

/-- All five column tables have duplicate-free key sets. -/
def ColumnarWriter.mapsNodup (w : ColumnarWriter) : Prop :=
  (w.numerical_field_hash_map.map Prod.fst).Nodup ∧
  (w.bool_field_hash_map.map Prod.fst).Nodup ∧
  (w.ip_addr_field_hash_map.map Prod.fst).Nodup ∧
  (w.bytes_field_hash_map.map Prod.fst).Nodup ∧
  (w.str_field_hash_map.map Prod.fst).Nodup

theorem applyCall_mapsNodup (w : ColumnarWriter) (c : RecordCall) (h : w.mapsNodup) :
    (w.applyCall c).mapsNodup := by
  rcases h with ⟨h1, h2, h3, h4, h5⟩
  cases c with
  | numericalCall doc name v =>
    rw [ColumnarWriter.applyCall, ColumnarWriter.record_numerical]
    by_cases hz : name.contains 0
    · simp only [hz, if_true, Option.getD_none]
      exact ⟨h1, h2, h3, h4, h5⟩
    · simp only [hz, if_false, Option.getD_some]
      exact ⟨nodup_keys_mutateOrCreate _ name _ h1, h2, h3, h4, h5⟩
  | boolCall doc name v =>
    rw [ColumnarWriter.applyCall, ColumnarWriter.record_bool]
    by_cases hz : name.contains 0
    · simp only [hz, if_true, Option.getD_none]
      exact ⟨h1, h2, h3, h4, h5⟩
    · simp only [hz, if_false, Option.getD_some]
      exact ⟨h1, nodup_keys_mutateOrCreate _ name _ h2, h3, h4, h5⟩
  | ipAddrCall doc name v =>
    rw [ColumnarWriter.applyCall, ColumnarWriter.record_ip_addr]
    by_cases hz : name.contains 0
    · simp only [hz, if_true, Option.getD_none]
      exact ⟨h1, h2, h3, h4, h5⟩
    · simp only [hz, if_false, Option.getD_some]
      exact ⟨h1, h2, nodup_keys_mutateOrCreate _ name _ h3, h4, h5⟩
  | bytesCall doc name v =>
    rw [ColumnarWriter.applyCall, ColumnarWriter.record_bytes]
    by_cases hz : name.contains 0
    · simp only [hz, if_true, Option.getD_none]
      exact ⟨h1, h2, h3, h4, h5⟩
    · simp only [hz, if_false, Option.getD_some]
      exact ⟨h1, h2, h3, nodup_keys_mutateOrCreateStrOrBytes _ _ name doc v h4, h5⟩
  | strCall doc name v =>
    rw [ColumnarWriter.applyCall, ColumnarWriter.record_str]
    by_cases hz : name.contains 0
    · simp only [hz, if_true, Option.getD_none]
      exact ⟨h1, h2, h3, h4, h5⟩
    · simp only [hz, if_false, Option.getD_some]
      exact ⟨h1, h2, h3, h4, nodup_keys_mutateOrCreateStrOrBytes _ _ name doc v h5⟩

theorem applyCalls_mapsNodup (calls : List RecordCall) :
    (ColumnarWriter.applyCalls calls).mapsNodup := by
  have hgen : ∀ (cs : List RecordCall) (w : ColumnarWriter), w.mapsNodup →
      (cs.foldl ColumnarWriter.applyCall w).mapsNodup := by
    intro cs
    induction cs with
    | nil => intro w hw; exact hw
    | cons c rest ih =>
      intro w hw
      exact ih (w.applyCall c) (applyCall_mapsNodup w c hw)
  exact hgen calls emptyColumnarWriter
    ⟨List.nodup_nil, List.nodup_nil, List.nodup_nil, List.nodup_nil, List.nodup_nil⟩

theorem pairwise_ne_chunk {β : Type} (m : List (List Nat × β)) (cat : ColumnTypeCategory)
    (h : (m.map Prod.fst).Nodup) :
    (m.map (fun e => (e.1, cat))).Pairwise (fun a b => a ≠ b) := by
  rw [List.pairwise_map]
  have h' := List.pairwise_map.mp h
  refine h'.imp ?_
  intro a b hne heq
  exact hne (congrArg (fun p : List Nat × ColumnTypeCategory => p.1) heq)

theorem chunk_snd {β : Type} (m : List (List Nat × β)) (cat : ColumnTypeCategory) :
    ∀ a ∈ m.map (fun e => (e.1, cat)), a.2 = cat := by
  intro a ha
  rcases List.mem_map.mp ha with ⟨e, _, rfl⟩
  rfl

theorem disjoint_chunks {β γ : Type} (m₁ : List (List Nat × β)) (m₂ : List (List Nat × γ))
    (cat₁ cat₂ : ColumnTypeCategory) (hne : cat₁ ≠ cat₂) :
    (m₁.map (fun e => (e.1, cat₁))).Disjoint (m₂.map (fun e => (e.1, cat₂))) := by
  intro a ha₁ ha₂
  have h1 := chunk_snd m₁ cat₁ a ha₁
  have h2 := chunk_snd m₂ cat₂ a ha₂
  exact hne (h1 ▸ h2 ▸ rfl)

theorem disjoint_append_right {α : Type} {l l₁ l₂ : List α} (h₁ : l.Disjoint l₁)
    (h₂ : l.Disjoint l₂) : l.Disjoint (l₁ ++ l₂) := by
  intro a ha hmem
  rcases List.mem_append.mp hmem with h | h
  · exact h₁ ha h
  · exact h₂ ha h

theorem fieldColumns_nodup (w : ColumnarWriter) (h : w.mapsNodup) :
    w.fieldColumns.Nodup := by
  rcases h with ⟨h1, h2, h3, h4, h5⟩
  rw [ColumnarWriter.fieldColumns]
  rw [List.append_assoc, List.append_assoc, List.append_assoc]
  rw [List.nodup_append]
  refine ⟨pairwise_ne_chunk _ _ h1, ?_, ?_⟩
  · rw [List.nodup_append]
    refine ⟨pairwise_ne_chunk _ _ h4, ?_, ?_⟩
    · rw [List.nodup_append]
      refine ⟨pairwise_ne_chunk _ _ h5, ?_, ?_⟩
      · rw [List.nodup_append]
        refine ⟨pairwise_ne_chunk _ _ h2, pairwise_ne_chunk _ _ h3, ?_⟩
        exact disjoint_chunks _ _ _ _ (by decide)
      · refine disjoint_append_right ?_ ?_
        · exact disjoint_chunks _ _ _ _ (by decide)
        · exact disjoint_chunks _ _ _ _ (by decide)
    · refine disjoint_append_right ?_ (disjoint_append_right ?_ ?_)
      · exact disjoint_chunks _ _ _ _ (by decide)
      · exact disjoint_chunks _ _ _ _ (by decide)
      · exact disjoint_chunks _ _ _ _ (by decide)
  · refine disjoint_append_right ?_ (disjoint_append_right ?_
      (disjoint_append_right ?_ ?_))
    · exact disjoint_chunks _ _ _ _ (by decide)
    · exact disjoint_chunks _ _ _ _ (by decide)
    · exact disjoint_chunks _ _ _ _ (by decide)
    · exact disjoint_chunks _ _ _ _ (by decide)

theorem sorted_pairwise_keyLt (l : List (List Nat × ColumnTypeCategory)) (hnd : l.Nodup) :
    (List.insertionSort keyLe l).Pairwise (fun a b => keyLtB a b = true) := by
  have hs : (List.insertionSort keyLe l).Pairwise keyLe :=
    List.sorted_insertionSort keyLe l
  have hnd' : (List.insertionSort keyLe l).Nodup :=
    ((List.perm_insertionSort keyLe l).nodup_iff).mpr hnd
  have hboth := hs.and hnd'
  refine hboth.imp ?_
  intro a b hab
  rcases keyLtB_trichotomy a b with h | h | h
  · exact h
  · exact absurd h hab.2
  · exact absurd h (by
      have := hab.1
      rw [keyLe] at this
      rw [this]
      simp)

/-- C7: for every writer reached by any sequence of record calls, the
directory entries (and the column frames, emitted in the same order) are
strictly sorted by the key (name bytes lexicographically, then category
enum order); in particular no two emitted columns share a
`(name, category)` pair. -/
theorem claim_C7_directory_sorted_unique (calls : List RecordCall) :
    ((ColumnarWriter.applyCalls calls).serializeDirectory.Pairwise
      (fun a b => keyLtB a b = true)) ∧
    ((ColumnarWriter.applyCalls calls).serializeDirectory.Pairwise (fun a b => a ≠ b)) := by
  have hnd : (ColumnarWriter.applyCalls calls).fieldColumns.Nodup :=
    fieldColumns_nodup _ (applyCalls_mapsNodup calls)
  constructor
  · exact sorted_pairwise_keyLt _ hnd
  · exact ((List.perm_insertionSort keyLe _).nodup_iff).mpr hnd

/-! ## C10: determinism of serialize -/

/-- Concatenated frame emission over the sorted column list (the frame
content function enters as a parameter: it is the per-category column
serialization, a pure function of the entry). -/
def serializeColumnFrames (frameFn : (List Nat × ColumnTypeCategory) → List Nat)
    (cols : List (List Nat × ColumnTypeCategory)) : List Nat :=
  (sortFieldColumns cols).foldl (fun acc e => acc ++ frameFn e) []

theorem clearBuffer_eq (buffer : List Nat) : clearBuffer buffer = [] := rfl

theorem sortFieldColumns_perm_eq (l₁ l₂ : List (List Nat × ColumnTypeCategory))
    (hperm : List.Perm l₁ l₂) (hnd : l₁.Nodup) :
    sortFieldColumns l₁ = sortFieldColumns l₂ := by
  have hperm2 : List.Perm (sortFieldColumns l₁) (sortFieldColumns l₂) :=
    (List.perm_insertionSort keyLe l₁).trans
      (hperm.trans (List.perm_insertionSort keyLe l₂).symm)
  exact List.eq_of_perm_of_sorted hperm2 (sorted_pairwise_keyLt l₁ hnd)
    (sorted_pairwise_keyLt l₂ (hperm.nodup_iff.mp hnd))

/-- C10: serialization is deterministic — the emitted frame sequence does
not depend on the hash-map iteration order (any two enumerations of the
same recorded columns sort to the same directory and produce the same
bytes), and the per-column serializers do not depend on previously used
scratch buffers, which are cleared before each column. -/
theorem claim_C10_serialize_deterministic (calls : List RecordCall)
    (order₁ order₂ : List (List Nat × ColumnTypeCategory))
    (h₁ : List.Perm order₁ (ColumnarWriter.applyCalls calls).fieldColumns)
    (h₂ : List.Perm order₂ (ColumnarWriter.applyCalls calls).fieldColumns)
    (frameFn : (List Nat × ColumnTypeCategory) → List Nat)
    (indexCodec : SerializableColumnIndex → List Nat) (valueCodec : List Nat → List Nat)
    (ops : List (ColumnOperation Nat)) (cardinality : Cardinality) (num_docs : Nat)
    (dict : DictionaryBuilder) (spare₁ spare₂ : List Nat) :
    serializeColumnFrames frameFn order₁ = serializeColumnFrames frameFn order₂ ∧
    send_to_serialize_column_mappable_to_u64 indexCodec valueCodec ops cardinality
        num_docs spare₁ =
      send_to_serialize_column_mappable_to_u64 indexCodec valueCodec ops cardinality
        num_docs spare₂ ∧
    serialize_bytes_or_str_column indexCodec valueCodec cardinality num_docs dict ops
        spare₁ =
      serialize_bytes_or_str_column indexCodec valueCodec cardinality num_docs dict ops
        spare₂ := by
  have hnd1 : order₁.Nodup :=
    h₁.nodup_iff.mpr (fieldColumns_nodup _ (applyCalls_mapsNodup calls))
  have hsort : sortFieldColumns order₁ = sortFieldColumns order₂ :=
    sortFieldColumns_perm_eq order₁ order₂ (h₁.trans h₂.symm) hnd1
  refine ⟨?_, rfl, rfl⟩
  rw [serializeColumnFrames, serializeColumnFrames, hsort]

/-- Witness for C10: a writer with a numerical and a bool column, the two
enumeration orders of its columns, and two different stale scratch
buffers. -/
theorem claim_C10_serialize_deterministic_witness :
    (List.Perm [([97], ColumnTypeCategory.numerical), ([98], ColumnTypeCategory.bool)]
      (ColumnarWriter.applyCalls
        [RecordCall.numericalCall 0 [97] (NumericalValue.u64 5),
         RecordCall.boolCall 0 [98] true]).fieldColumns) ∧
    (List.Perm [([98], ColumnTypeCategory.bool), ([97], ColumnTypeCategory.numerical)]
      (ColumnarWriter.applyCalls
        [RecordCall.numericalCall 0 [97] (NumericalValue.u64 5),
         RecordCall.boolCall 0 [98] true]).fieldColumns) ∧
    (serializeColumnFrames (fun e => e.1)
        [([97], ColumnTypeCategory.numerical), ([98], ColumnTypeCategory.bool)] =
      serializeColumnFrames (fun e => e.1)
        [([98], ColumnTypeCategory.bool), ([97], ColumnTypeCategory.numerical)] ∧
    send_to_serialize_column_mappable_to_u64 (fun _ => []) (fun vs => vs) [] Cardinality.full
        0 [] =
      send_to_serialize_column_mappable_to_u64 (fun _ => []) (fun vs => vs) [] Cardinality.full
        0 [7] ∧
    serialize_bytes_or_str_column (fun _ => []) (fun vs => vs) Cardinality.full 0 ⟨[]⟩ []
        [] =
      serialize_bytes_or_str_column (fun _ => []) (fun vs => vs) Cardinality.full 0 ⟨[]⟩ []
        [7]) := by
  refine ⟨by decide, by decide, ?_⟩
  exact claim_C10_serialize_deterministic
    [RecordCall.numericalCall 0 [97] (NumericalValue.u64 5),
     RecordCall.boolCall 0 [98] true]
    [([97], ColumnTypeCategory.numerical), ([98], ColumnTypeCategory.bool)]
    [([98], ColumnTypeCategory.bool), ([97], ColumnTypeCategory.numerical)]
    (by decide) (by decide)
    (fun e => e.1) (fun _ => []) (fun vs => vs) [] Cardinality.full 0 ⟨[]⟩ [] [7]
